import Mathlib

/-!
Verification of the baselode drill core: desurveying, position attachment,
compositing/resampling, and validation helpers.

The rational-number layer below embeds the pandas/numpy code of
`baselode/drill/composite.py`, `baselode/drill/desurvey.py`
(`attach_assay_positions`) and `baselode/drill/validate.py` over exact
arithmetic (`ℚ`), with tables as lists of records; hole identifiers are
embedded as naturals (pandas sorts and groups them by their linear order,
which is all the code uses).  The real-number layer embeds the
trigonometric desurvey engine of `baselode/drill/desurvey.py` over `ℝ`.
-/

namespace Baselode

/-- `np.arange(start, stop, step)`: the values `start + k*step` for
`0 ≤ k < max 0 ⌈(stop - start)/step⌉`. -/
def arange (start stop step : ℚ) : List ℚ :=
  (List.range (Int.ceil ((stop - start) / step)).toNat).map
    (fun k : ℕ => start + (k : ℚ) * step)

/-- Minimum of a list of rationals (pandas `.min()`; the empty case is
unreachable where this is used, on non-empty groups). -/
def listMin : List ℚ → ℚ
  | [] => 0
  | x :: xs => xs.foldl min x

/-- Maximum of a list of rationals (pandas `.max()`; the empty case is
unreachable where this is used, on non-empty groups). -/
def listMax : List ℚ → ℚ
  | [] => 0
  | x :: xs => xs.foldl max x

/-! ## Compositing (`baselode/drill/composite.py`, `composite_intervals`) -/

/-- One row of an interval table: `hole_id`, `from`, `to` and one numeric
value column.  Also the shape of the rows `composite_intervals` emits. -/
structure IntervalRow where
  hole_id : ℕ
  fromDepth : ℚ
  toDepth : ℚ
  value : ℚ
  deriving DecidableEq, Repr

/-- The `method` argument of `composite_intervals`. -/
inductive CompMethod
  | average
  | sum
  deriving DecidableEq, Repr

/-- Overlap of interval row `r` with the bin `[cFrom, cTo]`:
`(np.minimum(to, c_to) - np.maximum(from, c_from)).clip(lower=0)`. -/
def overlapLen (r : IntervalRow) (cFrom cTo : ℚ) : ℚ :=
  max 0 (min r.toDepth cTo - max r.fromDepth cFrom)

/-- The value recorded for one bin: overlap-weighted sum for
`method="sum"`, overlap-weighted average otherwise. -/
def binValue (window : List IntervalRow) (cFrom cTo : ℚ) : CompMethod → ℚ
  | .sum => (window.map (fun r => r.value * overlapLen r cFrom cTo)).sum
  | .average =>
      let total := (window.map (fun r => overlapLen r cFrom cTo)).sum
      (window.map (fun r => r.value * (overlapLen r cFrom cTo / total))).sum

/-- Body of the per-hole loop of `composite_intervals`: bins from
`np.arange(start, end + length, length)`, one output row per bin with a
non-empty overlap window. -/
def compositeHole (hid : ℕ) (group : List IntervalRow) (len : ℚ)
    (method : CompMethod) : List IntervalRow :=
  let start := listMin (group.map (·.fromDepth))
  let stop := listMax (group.map (·.toDepth))
  let bins := arange start (stop + len) len
  (bins.zip bins.tail).filterMap (fun bin =>
    let window := group.filter (fun r =>
      decide (r.fromDepth < bin.2) && decide (bin.1 < r.toDepth))
    if window.isEmpty then none
    else some ⟨hid, bin.1, bin.2, binValue window bin.1 bin.2 method⟩)

/-- Lexicographic sort key of `df.sort_values(["hole_id", from_col])`. -/
def compLE (a b : IntervalRow) : Prop :=
  a.hole_id < b.hole_id ∨ (a.hole_id = b.hole_id ∧ a.fromDepth ≤ b.fromDepth)

instance : DecidableRel compLE := fun a b => by unfold compLE; infer_instance

/-- `composite_intervals(df, value_col, from_col, to_col, length, method)`:
sort by `(hole_id, from)`, then group by hole (ascending) and composite
each hole's intervals onto regular bins. -/
def composite_intervals (df : List IntervalRow) (len : ℚ)
    (method : CompMethod) : List IntervalRow :=
  if df = [] then []
  else
    let dfSorted := List.insertionSort compLE df
    let holes := (dfSorted.map (·.hole_id)).dedup
    holes.flatMap (fun hid =>
      compositeHole hid (dfSorted.filter (fun r => r.hole_id == hid)) len method)

/-! ## Resampling (`baselode/drill/composite.py`, `resample_trace`) -/

/-- One row of a trace table as `resample_trace` reads it: `hole_id`,
`md`, and the easting/northing/elevation coordinate columns. -/
structure TraceRow where
  hole_id : ℕ
  md : ℚ
  easting : ℚ
  northing : ℚ
  elevation : ℚ
  deriving DecidableEq, Repr

/-- `np.interp` against sample points `(xp i, fp i)` (assumed sorted by
`xp`): constant extrapolation outside the range, linear interpolation on
each segment. -/
def interpPairs : List (ℚ × ℚ) → ℚ → ℚ
  | [], _ => 0
  | [(_, f0)], _ => f0
  | (x0, f0) :: (x1, f1) :: rest, x =>
      if x ≤ x0 then f0
      else if x ≤ x1 then f0 + (x - x0) * (f1 - f0) / (x1 - x0)
      else interpPairs ((x1, f1) :: rest) x

/-- Sort key of `group.sort_values("md")`. -/
def traceRowLE (a b : TraceRow) : Prop := a.md ≤ b.md

instance : DecidableRel traceRowLE := fun a b => by unfold traceRowLE; infer_instance

/-- Body of the per-hole loop of `resample_trace`: a uniform md grid from
`np.arange(start, end + step, step)` with `np.interp` for each coordinate. -/
def resampleHole (hid : ℕ) (group : List TraceRow) (step : ℚ) : List TraceRow :=
  let sorted := List.insertionSort traceRowLE group
  let mds := sorted.map (·.md)
  let start := listMin mds
  let stop := listMax mds
  let sampleMds := arange start (stop + step) step
  sampleMds.map (fun m =>
    ⟨hid, m, interpPairs (sorted.map (fun r => (r.md, r.easting))) m,
      interpPairs (sorted.map (fun r => (r.md, r.northing))) m,
      interpPairs (sorted.map (fun r => (r.md, r.elevation))) m⟩)

/-- `resample_trace(trace_df, step)`: group by hole (ascending, rows kept
in input order within each hole) and resample each hole's trace. -/
def resample_trace (df : List TraceRow) (step : ℚ) : List TraceRow :=
  if df = [] then []
  else
    let holes := List.insertionSort (· ≤ ·) (df.map (·.hole_id)).dedup
    holes.flatMap (fun hid =>
      resampleHole hid (df.filter (fun r => r.hole_id == hid)) step)

/-! ## Position attachment (`baselode/drill/desurvey.py`, `attach_assay_positions`)

Embedded with the canonical `hole_id` column (the alias-column handling of
`_canonicalize_hole_id` is the identity on canonical tables) and with all
numeric cells valid, so the `to_numeric`/`notna` filters are identities. -/

/-- One row of the assay/interval table handed to `attach_assay_positions`. -/
structure AssayRow where
  hole_id : ℕ
  fromDepth : ℚ
  toDepth : ℚ
  deriving DecidableEq, Repr

/-- One trace vertex row as `attach_assay_positions` reads it. -/
structure TraceVert where
  hole_id : ℕ
  md : ℚ
  x : ℚ
  y : ℚ
  z : ℚ
  azimuth : ℚ
  dip : ℚ
  deriving DecidableEq, Repr

/-- The block of position/orientation columns copied from a trace vertex
onto an interval row (`md`, `x`, `y`, `z`, `azimuth`, `dip`). -/
structure TracePos where
  md : ℚ
  x : ℚ
  y : ℚ
  z : ℚ
  azimuth : ℚ
  dip : ℚ
  deriving DecidableEq, Repr

/-- The copied columns of a vertex. -/
def TraceVert.pos (v : TraceVert) : TracePos :=
  ⟨v.md, v.x, v.y, v.z, v.azimuth, v.dip⟩

/-- One output row of `attach_assay_positions`: the interval columns, the
computed `mid_md` column, and the attached trace columns.  `none` models
the NaN cells of rows that never went through the merge (`mid`) or whose
hole has no trace (`pos`). -/
structure AttachedRow where
  hole_id : ℕ
  fromDepth : ℚ
  toDepth : ℚ
  mid : Option ℚ
  pos : Option TracePos
  deriving DecidableEq, Repr

/-- Sort key of `assays.sort_values(["hole_id", "from", "to"])`. -/
def assayLE (a b : AssayRow) : Prop :=
  a.hole_id < b.hole_id ∨ (a.hole_id = b.hole_id ∧
    (a.fromDepth < b.fromDepth ∨ (a.fromDepth = b.fromDepth ∧ a.toDepth ≤ b.toDepth)))

instance : DecidableRel assayLE := fun a b => by unfold assayLE; infer_instance

/-- Sort key of `traces.sort_values(["hole_id", "md"])`. -/
def traceVertLE (a b : TraceVert) : Prop :=
  a.hole_id < b.hole_id ∨ (a.hole_id = b.hole_id ∧ a.md ≤ b.md)

instance : DecidableRel traceVertLE := fun a b => by unfold traceVertLE; infer_instance

/-- Sort key of `group.sort_values("mid_md")` on assay rows paired with
their midpoint. -/
def midLE (a b : AssayRow × ℚ) : Prop := a.2 ≤ b.2

instance : DecidableRel midLE := fun a b => by unfold midLE; infer_instance

/-- The backward candidate of `pd.merge_asof`: the last vertex (in list
order) whose `md` does not exceed the key. -/
def lastLE : List TraceVert → ℚ → Option TraceVert
  | [], _ => none
  | v :: vs, m =>
      match lastLE vs m with
      | some w => some w
      | none => if v.md ≤ m then some v else none

/-- The forward candidate of `pd.merge_asof`: the first vertex whose `md`
is at least the key. -/
def firstGE (tg : List TraceVert) (m : ℚ) : Option TraceVert :=
  tg.find? (fun v => decide (m ≤ v.md))

/-- `pd.merge_asof(..., direction="nearest")` on one key: of the backward
and forward candidates, the one at the smaller absolute distance, the
backward (earlier-depth) one on ties. -/
def nearestVertex (tg : List TraceVert) (m : ℚ) : Option TraceVert :=
  match lastLE tg m, firstGE tg m with
  | some b, some f => if m - b.md ≤ f.md - m then some b else some f
  | some b, none => some b
  | none, some f => some f
  | none, none => none

/-- The body of the per-hole `groupby` loop of `attach_assay_positions`:
either pass the group through (hole absent from the traces) or merge-asof
the group, sorted by `mid_md`, against the hole's vertices. -/
def attachHole (hid : ℕ) (withMid : List (AssayRow × ℚ))
    (tracesSorted : List TraceVert) : List AttachedRow :=
  let group := withMid.filter (fun p => p.1.hole_id == hid)
  let tgroup := tracesSorted.filter (fun v => v.hole_id == hid)
  if tgroup.isEmpty then
    group.map (fun p => ⟨p.1.hole_id, p.1.fromDepth, p.1.toDepth, some p.2, none⟩)
  else
    (List.insertionSort midLE group).map (fun p =>
      ⟨p.1.hole_id, p.1.fromDepth, p.1.toDepth, some p.2,
        (nearestVertex tgroup p.2).map TraceVert.pos⟩)

/-- `attach_assay_positions(assays, traces)` over canonical tables: early
return on an empty input; otherwise sort traces by `(hole_id, md)`, sort
assays by `(hole_id, from, to)`, compute `mid_md`, then run the per-hole
loop over the holes in order of first appearance in the sorted assays
(i.e. ascending) and concatenate. -/
def attach_assay_positions (assays : List AssayRow) (traces : List TraceVert) :
    List AttachedRow :=
  if assays = [] ∨ traces = [] then
    assays.map (fun a => ⟨a.hole_id, a.fromDepth, a.toDepth, none, none⟩)
  else
    let tracesSorted := List.insertionSort traceVertLE traces
    let withMid := (List.insertionSort assayLE assays).map
      (fun a => (a, (a.fromDepth + a.toDepth) / 2))
    let holes := (withMid.map (fun p => p.1.hole_id)).dedup
    holes.flatMap (fun hid => attachHole hid withMid tracesSorted)

/-! ## Validation (`baselode/drill/validate.py`)

The two checkers are translated with explicit state passing: beside the
issue list they return the frame as it stands when the function returns,
so that the no-mutation contract is a provable statement about the
translation. -/

/-- One row of the interval table as `validate_intervals` reads it; `none`
models a NaN depth cell (`pd.isna`). -/
structure VRow where
  hole_id : ℕ
  fromDepth : Option ℚ
  toDepth : Option ℚ
  deriving DecidableEq, Repr

/-- One row of the survey table as `validate_surveys` reads it. -/
structure SRow where
  hole_id : ℕ
  fromDepth : ℚ
  deriving DecidableEq, Repr

/-- One issue record (`hole_id` plus the `type` tag; the echoed source row
of the Python dict is determined by the input and not re-modelled). -/
structure IssueRec where
  hole_id : ℕ
  itype : String
  deriving DecidableEq, Repr

/-- Sort key of `group.sort_values(from_col)`: NaN (`none`) sorts last. -/
def vrowLE (a b : VRow) : Prop :=
  match a.fromDepth, b.fromDepth with
  | none, none => True
  | none, some _ => False
  | some _, none => True
  | some x, some y => x ≤ y

instance : DecidableRel vrowLE := fun a b => by
  unfold vrowLE
  rcases a.fromDepth with _ | x <;> rcases b.fromDepth with _ | y <;> infer_instance

/-- The row loop of `validate_intervals` for one hole: missing depths are
flagged and skipped, then non-positive length and overlap against the
running `prev_to`. -/
def intervalIssues (hid : ℕ) : Option ℚ → List VRow → List IssueRec
  | _, [] => []
  | prevTo, r :: rest =>
      match r.fromDepth, r.toDepth with
      | some f, some t =>
          (if t ≤ f then [⟨hid, "non_positive_length"⟩] else []) ++
          (match prevTo with
            | some p => if f < p then [⟨hid, "overlap"⟩] else []
            | none => []) ++
          intervalIssues hid (some t) rest
      | _, _ => ⟨hid, "missing_depth"⟩ :: intervalIssues hid prevTo rest

/-- `validate_intervals(df)`: group by hole (ascending), sort each group by
`from` and scan it; the frame is returned unchanged beside the issues. -/
def validate_intervals (df : List VRow) : List IssueRec × List VRow :=
  let holes := List.insertionSort (· ≤ ·) (df.map (·.hole_id)).dedup
  (holes.flatMap (fun hid =>
      intervalIssues hid none
        (List.insertionSort vrowLE (df.filter (fun r => r.hole_id == hid)))),
    df)

/-- `pd.Series(depths).is_monotonic_increasing`. -/
def isMonotonic : List ℚ → Bool
  | [] => true
  | [_] => true
  | a :: b :: rest => decide (a ≤ b) && isMonotonic (b :: rest)

/-- `validate_surveys(df)`: one issue per hole whose depth column is not
monotonically non-decreasing; the frame is returned unchanged beside the
issues. -/
def validate_surveys (df : List SRow) : List IssueRec × List SRow :=
  let holes := List.insertionSort (· ≤ ·) (df.map (·.hole_id)).dedup
  (holes.flatMap (fun hid =>
      if isMonotonic ((df.filter (fun r => r.hole_id == hid)).map (·.fromDepth)) then []
      else [⟨hid, "non_monotonic_survey"⟩]),
    df)

/-! ## Desurveying (`baselode/drill/desurvey.py`, `_desurvey` and friends)

The trigonometric engine is embedded over `ℝ` (the exact-arithmetic
idealization of the float code).  A hole's stations are taken already
grouped and sorted by `md` (the `from` column), which is how `_desurvey`
hands them to its inner loops. -/

/-- One survey station row: the `from` (measured depth), `azimuth` and
`dip` columns, in degrees. -/
structure Station where
  md : ℝ
  azimuth : ℝ
  dip : ℝ

/-- One emitted trace vertex record. -/
@[ext]
structure Vertex where
  md : ℝ
  x : ℝ
  y : ℝ
  z : ℝ
  azimuth : ℝ
  dip : ℝ

/-- The `method` argument of `_desurvey`. -/
inductive Method
  | minimum_curvature
  | tangential
  | balanced_tangential
  deriving DecidableEq, Repr

/-- `_deg_to_rad` (`math.radians`). -/
noncomputable def degToRad (angle : ℝ) : ℝ := angle * Real.pi / 180

/-- `_direction_cosines(azimuth, dip)`. -/
noncomputable def direction_cosines (azimuth dip : ℝ) : ℝ × ℝ × ℝ :=
  let azRad := degToRad azimuth
  let dipRad := degToRad dip
  (Real.cos dipRad * Real.sin azRad, Real.cos dipRad * Real.cos azRad,
    Real.sin dipRad * (-1))

/-- The dogleg/ratio-factor computation, written verbatim in both
`_segment_displacement` (minimum-curvature branch) and the legacy
`minimum_curvature_desurvey` loop:
`dogleg = acos(clamp(dot, -1, 1))`, `rf = 2*tan(dogleg/2)/dogleg` when
`dogleg > 1e-6` and `1` otherwise. -/
noncomputable def ratioFactor (az0 dip0 az1 dip1 : ℝ) : ℝ :=
  let c0 := direction_cosines az0 dip0
  let c1 := direction_cosines az1 dip1
  let dogleg := Real.arccos (max (-1)
    (min 1 (c0.1 * c1.1 + c0.2.1 * c1.2.1 + c0.2.2 * c1.2.2)))
  if dogleg > 1 / 1000000 then 2 * Real.tan (dogleg / 2) / dogleg else 1

/-- `_segment_displacement(delta_md, az0, dip0, az1, dip1, method)`:
returns `(dx, dy, dz, az_for_record, dip_for_record)`. -/
noncomputable def segment_displacement (delta_md az0 dip0 az1 dip1 : ℝ) :
    Method → ℝ × ℝ × ℝ × ℝ × ℝ
  | .tangential =>
      let c0 := direction_cosines az0 dip0
      (delta_md * c0.1, delta_md * c0.2.1, delta_md * c0.2.2, az0, dip0)
  | .balanced_tangential =>
      let azAvg := 0.5 * (az0 + az1)
      let dipAvg := 0.5 * (dip0 + dip1)
      let cA := direction_cosines azAvg dipAvg
      (delta_md * cA.1, delta_md * cA.2.1, delta_md * cA.2.2, azAvg, dipAvg)
  | .minimum_curvature =>
      let c0 := direction_cosines az0 dip0
      let c1 := direction_cosines az1 dip1
      let rf := ratioFactor az0 dip0 az1 dip1
      (0.5 * delta_md * (c0.1 + c1.1) * rf, 0.5 * delta_md * (c0.2.1 + c1.2.1) * rf,
        0.5 * delta_md * (c0.2.2 + c1.2.2) * rf, az1, dip1)

/-- The orientation stored on a record:
`az_interp if method == "minimum_curvature" else az_for_record`. -/
def recordOrient (method : Method) (interp forRecord : ℝ) : ℝ :=
  match method with
  | .minimum_curvature => interp
  | _ => forRecord

/-- Running state of `_desurvey`'s inner loops: `md_cursor` and the
accumulated `x`, `y`, `z`. -/
@[ext]
structure Cursor where
  md : ℝ
  x : ℝ
  y : ℝ
  z : ℝ

/-- The `for step_idx in range(segment_steps)` loop of `_desurvey`: advance
the cursor by `md_increment`, accumulate the segment displacement, emit a
record whose orientation is the depth-interpolated one for minimum
curvature and the method's `*_for_record` one otherwise. -/
noncomputable def subSteps (md0 delta_md mdInc az0 dip0 az1 dip1 : ℝ)
    (method : Method) : Cursor → ℕ → Cursor × List Vertex
  | c, 0 => (c, [])
  | c, n + 1 =>
      let md' := c.md + mdInc
      let weight := (md' - md0) / delta_md
      let azInterp := az0 + weight * (az1 - az0)
      let dipInterp := dip0 + weight * (dip1 - dip0)
      let d := segment_displacement mdInc az0 dip0 az1 dip1 method
      let x' := c.x + d.1
      let y' := c.y + d.2.1
      let z' := c.z + d.2.2.1
      let v : Vertex := ⟨md', x', y', z',
        recordOrient method azInterp d.2.2.2.1,
        recordOrient method dipInterp d.2.2.2.2⟩
      let rest := subSteps md0 delta_md mdInc az0 dip0 az1 dip1 method
        ⟨md', x', y', z'⟩ n
      (rest.1, v :: rest.2)

/-- The `for idx in range(len(hole_surveys) - 1)` loop of `_desurvey` over
consecutive station pairs: segments with `delta_md <= 0` are skipped,
otherwise `segment_steps = max(1, ceil(delta_md / step))` sub-steps of
`md_increment = delta_md / segment_steps` are run. -/
noncomputable def runSegments (step : ℝ) (method : Method) :
    Cursor → List Station → Cursor × List Vertex
  | c, [] => (c, [])
  | c, [_] => (c, [])
  | c, s0 :: s1 :: rest =>
      let delta_md := s1.md - s0.md
      if delta_md ≤ 0 then runSegments step method c (s1 :: rest)
      else
        let segment_steps := (max 1 (Int.ceil (delta_md / step))).toNat
        let mdInc := delta_md / (segment_steps : ℝ)
        let fst := subSteps s0.md delta_md mdInc s0.azimuth s0.dip s1.azimuth s1.dip
          method c segment_steps
        let snd := runSegments step method fst.1 (s1 :: rest)
        (snd.1, fst.2 ++ snd.2)

/-- The per-hole body of `_desurvey`: collar position `(cx, cy, cz)`,
stations sorted by `md`; emits the first record at the first station's
`md` with the collar position, then the segment loop's records.  A hole
with no stations is skipped (empty trace). -/
noncomputable def desurveyHole (cx cy cz : ℝ) (stations : List Station)
    (step : ℝ) (method : Method) : List Vertex :=
  match stations with
  | [] => []
  | s :: _ =>
      ⟨s.md, cx, cy, cz, s.azimuth, s.dip⟩ ::
        (runSegments step method ⟨s.md, cx, cy, cz⟩ stations).2

/-- One hole of the grouped collar/survey input of `_desurvey`: hole id,
collar `x`, `y`, `z`, and the hole's stations sorted by `md`. -/
structure Hole where
  hole_id : ℕ
  cx : ℝ
  cy : ℝ
  cz : ℝ
  stations : List Station

/-- `_desurvey(collars, surveys, step, method)` over grouped input: the
per-hole traces tagged with their hole id, concatenated in hole order. -/
noncomputable def desurvey (holes : List Hole) (step : ℝ) (method : Method) :
    List (ℕ × Vertex) :=
  holes.flatMap (fun h =>
    (desurveyHole h.cx h.cy h.cz h.stations step method).map (fun v => (h.hole_id, v)))

/-! ### The legacy implementation (`src/baselode/drill/desurvey.py`,
`minimum_curvature_desurvey`)

Identical outer structure; the dogleg and ratio factor are hoisted out of
the sub-step loop and the per-sub-step displacement is written
`0.5 * delta_md * (c0 + c1) * rf / segment_steps`.  The direction cosines
it computes from the interpolated orientation are dead code and omitted. -/

/-- The legacy sub-step loop: `segTotal` is the fixed `segment_steps` the
displacement is divided by. -/
noncomputable def legacySubSteps (md0 delta_md mdInc az0 dip0 az1 dip1 rf : ℝ)
    (segTotal : ℕ) : Cursor → ℕ → Cursor × List Vertex
  | c, 0 => (c, [])
  | c, n + 1 =>
      let md' := c.md + mdInc
      let weight := (md' - md0) / delta_md
      let azInterp := az0 + weight * (az1 - az0)
      let dipInterp := dip0 + weight * (dip1 - dip0)
      let c0 := direction_cosines az0 dip0
      let c1 := direction_cosines az1 dip1
      let x' := c.x + 0.5 * delta_md * (c0.1 + c1.1) * rf / (segTotal : ℝ)
      let y' := c.y + 0.5 * delta_md * (c0.2.1 + c1.2.1) * rf / (segTotal : ℝ)
      let z' := c.z + 0.5 * delta_md * (c0.2.2 + c1.2.2) * rf / (segTotal : ℝ)
      let v : Vertex := ⟨md', x', y', z', azInterp, dipInterp⟩
      let rest := legacySubSteps md0 delta_md mdInc az0 dip0 az1 dip1 rf segTotal
        ⟨md', x', y', z'⟩ n
      (rest.1, v :: rest.2)

/-- The legacy segment loop: dogleg and `rf` computed once per segment. -/
noncomputable def legacyRunSegments (step : ℝ) :
    Cursor → List Station → Cursor × List Vertex
  | c, [] => (c, [])
  | c, [_] => (c, [])
  | c, s0 :: s1 :: rest =>
      let delta_md := s1.md - s0.md
      if delta_md ≤ 0 then legacyRunSegments step c (s1 :: rest)
      else
        let rf := ratioFactor s0.azimuth s0.dip s1.azimuth s1.dip
        let segment_steps := (max 1 (Int.ceil (delta_md / step))).toNat
        let mdInc := delta_md / (segment_steps : ℝ)
        let fst := legacySubSteps s0.md delta_md mdInc s0.azimuth s0.dip
          s1.azimuth s1.dip rf segment_steps c segment_steps
        let snd := legacyRunSegments step fst.1 (s1 :: rest)
        (snd.1, fst.2 ++ snd.2)

/-- The per-hole body of `minimum_curvature_desurvey` (legacy). -/
noncomputable def legacyDesurveyHole (cx cy cz : ℝ) (stations : List Station)
    (step : ℝ) : List Vertex :=
  match stations with
  | [] => []
  | s :: _ =>
      ⟨s.md, cx, cy, cz, s.azimuth, s.dip⟩ ::
        (legacyRunSegments step ⟨s.md, cx, cy, cz⟩ stations).2

/-- The legacy `minimum_curvature_desurvey` over grouped input. -/
noncomputable def legacyDesurvey (holes : List Hole) (step : ℝ) :
    List (ℕ × Vertex) :=
  holes.flatMap (fun h =>
    (legacyDesurveyHole h.cx h.cy h.cz h.stations step).map (fun v => (h.hole_id, v)))

/-! ## Closed form of the sub-step loop -/

/-- The trace vertex the sub-step loop emits at sub-step `k` (0-based)
when started from cursor `c`. -/
noncomputable def subStepVertex (md0 delta_md mdInc az0 dip0 az1 dip1 : ℝ)
    (method : Method) (c : Cursor) (k : ℕ) : Vertex :=
  let d := segment_displacement mdInc az0 dip0 az1 dip1 method
  let md' := c.md + ((k : ℝ) + 1) * mdInc
  ⟨md', c.x + ((k : ℝ) + 1) * d.1, c.y + ((k : ℝ) + 1) * d.2.1,
    c.z + ((k : ℝ) + 1) * d.2.2.1,
    recordOrient method (az0 + ((md' - md0) / delta_md) * (az1 - az0)) d.2.2.2.1,
    recordOrient method (dip0 + ((md' - md0) / delta_md) * (dip1 - dip0)) d.2.2.2.2⟩

theorem subSteps_closed (md0 delta_md mdInc az0 dip0 az1 dip1 : ℝ)
    (method : Method) :
    ∀ (n : ℕ) (c : Cursor),
      subSteps md0 delta_md mdInc az0 dip0 az1 dip1 method c n =
        (⟨c.md + n * mdInc,
          c.x + n * (segment_displacement mdInc az0 dip0 az1 dip1 method).1,
          c.y + n * (segment_displacement mdInc az0 dip0 az1 dip1 method).2.1,
          c.z + n * (segment_displacement mdInc az0 dip0 az1 dip1 method).2.2.1⟩,
         (List.range n).map (subStepVertex md0 delta_md mdInc az0 dip0 az1 dip1 method c)) := by
  intro n
  induction n with
  | zero =>
      intro c
      simp [subSteps]
  | succ n ih =>
      intro c
      rw [subSteps, ih, List.range_succ_eq_map, List.map_cons, List.map_map]
      simp only [Prod.mk.injEq, List.cons.injEq]
      refine ⟨by ext <;> push_cast <;> ring, ?_, ?_⟩
      · simp only [subStepVertex]
        ext <;> (push_cast; ring_nf)
      · apply List.map_congr_left
        intro k _
        simp only [Function.comp_apply, subStepVertex]
        ext <;> (push_cast; ring_nf)

/-! ## Loop invariants of the segment loop -/

theorem segmentSteps_pos (delta step : ℝ) : 1 ≤ (max 1 (Int.ceil (delta / step))).toNat := by
  have h : (1 : ℤ) ≤ max 1 (Int.ceil (delta / step)) := le_max_left _ _
  exact_mod_cast Int.toNat_le_toNat h

theorem runSegments_md (step : ℝ) (method : Method) :
    ∀ (l : List Station) (c : Cursor),
      c.md ≤ ((runSegments step method c l).1).md ∧
      List.Chain' (· < ·) (((runSegments step method c l).2).map Vertex.md) ∧
      ∀ v ∈ (runSegments step method c l).2,
        c.md < v.md ∧ v.md ≤ ((runSegments step method c l).1).md := by
  intro l
  induction l with
  | nil => intro c; simp [runSegments]
  | cons s0 l ih =>
      intro c
      match l with
      | [] => simp [runSegments]
      | s1 :: rest =>
          simp only [runSegments]
          by_cases hd : s1.md - s0.md ≤ 0
          · simpa [hd] using ih c
          · rw [if_neg hd, subSteps_closed]
            have hdelta : 0 < s1.md - s0.md := by linarith
            set n : ℕ := (max 1 (Int.ceil ((s1.md - s0.md) / step))).toNat with hn
            have hn1 : 1 ≤ n := segmentSteps_pos _ _
            have hnR : (0 : ℝ) < (n : ℝ) := by exact_mod_cast hn1
            have hInc : 0 < (s1.md - s0.md) / (n : ℝ) := div_pos hdelta hnR
            set inc : ℝ := (s1.md - s0.md) / (n : ℝ) with hinc
            set c1 : Cursor := ⟨c.md + n * inc,
              c.x + n * (segment_displacement inc s0.azimuth s0.dip s1.azimuth s1.dip method).1,
              c.y + n * (segment_displacement inc s0.azimuth s0.dip s1.azimuth s1.dip method).2.1,
              c.z + n * (segment_displacement inc s0.azimuth s0.dip s1.azimuth s1.dip method).2.2.1⟩
              with hc1
            obtain ⟨ih1, ih2, ih3⟩ := ih c1
            have hc1md : c1.md = c.md + n * inc := rfl
            have hfirst : ∀ k : ℕ, k ∈ List.range n →
                c.md < c.md + ((k : ℝ) + 1) * inc ∧
                  c.md + ((k : ℝ) + 1) * inc ≤ c1.md := by
              intro k hk
              have hkn : k < n := List.mem_range.mp hk
              have hkn' : (k : ℝ) + 1 ≤ (n : ℝ) := by exact_mod_cast hkn
              constructor
              · nlinarith
              · rw [hc1md]; nlinarith
            refine ⟨?_, ?_, ?_⟩
            · have : c.md ≤ c1.md := by rw [hc1md]; nlinarith
              exact this.trans ih1
            · rw [List.map_append, List.chain'_append]
              refine ⟨?_, ih2, ?_⟩
              · rw [List.map_map]
                apply List.Pairwise.chain'
                apply (List.pairwise_lt_range n).map
                intro a b hab
                simp only [Function.comp_apply, subStepVertex]
                have hab' : (a : ℝ) + 1 < (b : ℝ) + 1 := by exact_mod_cast Nat.succ_lt_succ hab
                nlinarith
              · intro x hx y hy
                have hx' := List.mem_of_mem_getLast? hx
                have hy' := List.mem_of_mem_head? hy
                rw [List.map_map] at hx'
                obtain ⟨k, hk, rfl⟩ := List.mem_map.mp hx'
                obtain ⟨v, hv, rfl⟩ := List.mem_map.mp hy'
                have h1 := (hfirst k hk).2
                have h2 := (ih3 v hv).1
                simp only [Function.comp_apply, subStepVertex] at h1 ⊢
                exact lt_of_le_of_lt h1 h2
            · intro v hv
              rcases List.mem_append.mp hv with hv1 | hv2
              · obtain ⟨k, hk, rfl⟩ := List.mem_map.mp hv1
                have h1 := hfirst k hk
                simp only [subStepVertex]
                exact ⟨h1.1, h1.2.trans ih1⟩
              · have h2 := ih3 v hv2
                have : c.md ≤ c1.md := by rw [hc1md]; nlinarith
                exact ⟨lt_of_le_of_lt this h2.1, h2.2⟩

/-- C2: over any collar position, any survey station list (sorted or not,
duplicate and decreasing depths included), any positive step and any
method, the emitted `md` sequence is strictly increasing and starts at the
first station's `md`. -/
theorem desurvey_md_strictly_increasing (cx cy cz step : ℝ) (method : Method)
    (stations : List Station) (hstep : 0 < step) :
    List.Chain' (· < ·) ((desurveyHole cx cy cz stations step method).map Vertex.md) ∧
    ∀ s0, stations.head? = some s0 →
      ((desurveyHole cx cy cz stations step method).map Vertex.md).head? = some s0.md := by
  clear hstep
  match stations with
  | [] => simp [desurveyHole]
  | s :: tl =>
      obtain ⟨_, h2, h3⟩ := runSegments_md step method (s :: tl) ⟨s.md, cx, cy, cz⟩
      constructor
      · simp only [desurveyHole, List.map_cons]
        rw [List.chain'_cons']
        refine ⟨?_, h2⟩
        intro y hy
        have hy' := List.mem_of_mem_head? hy
        obtain ⟨v, hv, rfl⟩ := List.mem_map.mp hy'
        exact (h3 v hv).1
      · intro s0 hs0
        simp only [List.head?_cons, Option.some.injEq] at hs0
        subst hs0
        simp [desurveyHole]

/-- Concrete instantiation of `desurvey_md_strictly_increasing`. -/
theorem desurvey_md_strictly_increasing_witness :
    (0 : ℝ) < 2 ∧
      (List.Chain' (· < ·)
          ((desurveyHole 0 0 0 [⟨0, 10, -45⟩, ⟨7, 20, -50⟩] 2
            .minimum_curvature).map Vertex.md) ∧
        ∀ s0, ([⟨0, 10, -45⟩, ⟨7, 20, -50⟩] : List Station).head? = some s0 →
          ((desurveyHole 0 0 0 [⟨0, 10, -45⟩, ⟨7, 20, -50⟩] 2
            .minimum_curvature).map Vertex.md).head? = some s0.md) :=
  ⟨by norm_num,
    desurvey_md_strictly_increasing 0 0 0 2 .minimum_curvature
      [⟨0, 10, -45⟩, ⟨7, 20, -50⟩] (by norm_num)⟩

/-- The Pythagorean identity for `_direction_cosines`:
`cos²(dip)·(sin²(az)+cos²(az)) + sin²(dip) = 1`. -/
theorem direction_cosines_sq_sum (azimuth dip : ℝ) :
    (direction_cosines azimuth dip).1 ^ 2 + (direction_cosines azimuth dip).2.1 ^ 2 +
      (direction_cosines azimuth dip).2.2 ^ 2 = 1 := by
  have h1 := Real.sin_sq_add_cos_sq (degToRad azimuth)
  have h2 := Real.sin_sq_add_cos_sq (degToRad dip)
  simp only [direction_cosines]
  nlinarith [h1, h2]

/-- C8: `_direction_cosines` returns a unit vector for every real azimuth
and dip (the function is total: there is no error branch). -/
theorem direction_cosines_unit (azimuth dip : ℝ) :
    (direction_cosines azimuth dip).1 ^ 2 + (direction_cosines azimuth dip).2.1 ^ 2 +
      (direction_cosines azimuth dip).2.2 ^ 2 = 1 :=
  direction_cosines_sq_sum azimuth dip

/-- C9: the two advisory checkers return their issue lists and leave the
input frame exactly as it was handed to them (the threaded frame state is
the identity). -/
theorem validate_no_mutation (df : List VRow) (sv : List SRow) :
    (validate_intervals df).2 = df ∧ (validate_surveys sv).2 = sv :=
  ⟨rfl, rfl⟩

/-! ## Straight holes: all methods coincide -/

/-- On a segment with identical end orientations the dot product of the
direction cosines is 1, the clamped arccos is 0, and the ratio factor
stays at its default 1. -/
theorem ratioFactor_self (a d : ℝ) : ratioFactor a d a d = 1 := by
  have hdot : (direction_cosines a d).1 * (direction_cosines a d).1 +
      (direction_cosines a d).2.1 * (direction_cosines a d).2.1 +
      (direction_cosines a d).2.2 * (direction_cosines a d).2.2 = 1 := by
    have h := direction_cosines_sq_sum a d
    nlinarith [h]
  simp only [ratioFactor, hdot]
  norm_num [Real.arccos_one]

/-- With identical end orientations every method's segment displacement is
the plain tangential one, and the recorded orientation is the shared one. -/
theorem segment_displacement_const (m a d : ℝ) (method : Method) :
    segment_displacement m a d a d method =
      (m * (direction_cosines a d).1, m * (direction_cosines a d).2.1,
        m * (direction_cosines a d).2.2, a, d) := by
  cases method with
  | tangential => rfl
  | balanced_tangential =>
      simp only [segment_displacement]
      rw [show (0.5 : ℝ) * (a + a) = a by ring, show (0.5 : ℝ) * (d + d) = d by ring]
  | minimum_curvature =>
      simp only [segment_displacement, ratioFactor_self, Prod.mk.injEq]
      refine ⟨by ring, by ring, by ring, trivial⟩

/-- Degenerate linear interpolation of a constant orientation. -/
theorem recordOrient_cancel (method : Method) (a w : ℝ) :
    recordOrient method (a + w * (a - a)) a = a := by
  cases method <;> simp [recordOrient]

/-- With identical end orientations the sub-step loop does not depend on
the method. -/
theorem subSteps_const (m0 delta inc a d : ℝ) (m1 m2 : Method) (n : ℕ) (c : Cursor) :
    subSteps m0 delta inc a d a d m1 c n = subSteps m0 delta inc a d a d m2 c n := by
  rw [subSteps_closed, subSteps_closed]
  simp only [Prod.mk.injEq]
  constructor
  · simp only [segment_displacement_const]
  · apply List.map_congr_left
    intro k _
    simp only [subStepVertex, segment_displacement_const, recordOrient_cancel]

/-- With constant station orientation the segment loop does not depend on
the method. -/
theorem runSegments_const (step a d : ℝ) (m1 m2 : Method) :
    ∀ (l : List Station) (c : Cursor), (∀ s ∈ l, s.azimuth = a ∧ s.dip = d) →
      runSegments step m1 c l = runSegments step m2 c l := by
  intro l
  induction l with
  | nil => intro c _; simp [runSegments]
  | cons s0 l ih =>
      intro c hconst
      match l with
      | [] => simp [runSegments]
      | s1 :: rest =>
          obtain ⟨ha0, hd0⟩ := hconst s0 (List.mem_cons_self _ _)
          obtain ⟨ha1, hd1⟩ := hconst s1 (List.mem_cons_of_mem _ (List.mem_cons_self _ _))
          have hconst' : ∀ s ∈ s1 :: rest, s.azimuth = a ∧ s.dip = d := fun s hs =>
            hconst s (List.mem_cons_of_mem _ hs)
          simp only [runSegments]
          by_cases hd : s1.md - s0.md ≤ 0
          · rw [if_pos hd, if_pos hd, ih c hconst']
          · rw [if_neg hd, if_neg hd, ha0, hd0, ha1, hd1,
              subSteps_const s0.md (s1.md - s0.md) _ a d m1 m2, ih _ hconst']

/-- With constant station orientation the whole per-hole desurvey does not
depend on the method. -/
theorem desurveyHole_const (cx cy cz step a d : ℝ) (stations : List Station)
    (m1 m2 : Method) (hconst : ∀ s ∈ stations, s.azimuth = a ∧ s.dip = d) :
    desurveyHole cx cy cz stations step m1 = desurveyHole cx cy cz stations step m2 := by
  match stations with
  | [] => rfl
  | s :: tl =>
      simp only [desurveyHole]
      rw [runSegments_const step a d m1 m2 (s :: tl) ⟨s.md, cx, cy, cz⟩ hconst]

/-- C7: when a hole's stations all share one azimuth and one dip, the
tangential, balanced-tangential and minimum-curvature reconstructions emit
identical positions (indeed identical records) at every vertex. -/
theorem methods_agree_on_straight_holes (cx cy cz step a d : ℝ)
    (stations : List Station)
    (hconst : ∀ s ∈ stations, s.azimuth = a ∧ s.dip = d) :
    ((desurveyHole cx cy cz stations step .tangential).map
        (fun v => (v.md, v.x, v.y, v.z)) =
      (desurveyHole cx cy cz stations step .minimum_curvature).map
        (fun v => (v.md, v.x, v.y, v.z))) ∧
    ((desurveyHole cx cy cz stations step .balanced_tangential).map
        (fun v => (v.md, v.x, v.y, v.z)) =
      (desurveyHole cx cy cz stations step .minimum_curvature).map
        (fun v => (v.md, v.x, v.y, v.z))) :=
  ⟨by rw [desurveyHole_const cx cy cz step a d stations .tangential .minimum_curvature hconst],
    by rw [desurveyHole_const cx cy cz step a d stations .balanced_tangential
      .minimum_curvature hconst]⟩

/-- Concrete instantiation of `methods_agree_on_straight_holes`. -/
theorem methods_agree_on_straight_holes_witness :
    (∀ s ∈ ([⟨0, 30, -60⟩, ⟨10, 30, -60⟩] : List Station),
        s.azimuth = 30 ∧ s.dip = -60) ∧
      (((desurveyHole 1 2 3 [⟨0, 30, -60⟩, ⟨10, 30, -60⟩] 3 .tangential).map
            (fun v => (v.md, v.x, v.y, v.z)) =
          (desurveyHole 1 2 3 [⟨0, 30, -60⟩, ⟨10, 30, -60⟩] 3 .minimum_curvature).map
            (fun v => (v.md, v.x, v.y, v.z))) ∧
        ((desurveyHole 1 2 3 [⟨0, 30, -60⟩, ⟨10, 30, -60⟩] 3 .balanced_tangential).map
            (fun v => (v.md, v.x, v.y, v.z)) =
          (desurveyHole 1 2 3 [⟨0, 30, -60⟩, ⟨10, 30, -60⟩] 3 .minimum_curvature).map
            (fun v => (v.md, v.x, v.y, v.z)))) :=
  ⟨by
    intro s hs
    rcases List.mem_cons.mp hs with rfl | hs
    · exact ⟨rfl, rfl⟩
    · rcases List.mem_singleton.mp hs with rfl
      exact ⟨rfl, rfl⟩,
    methods_agree_on_straight_holes 1 2 3 3 30 (-60) _ (by
      intro s hs
      rcases List.mem_cons.mp hs with rfl | hs
      · exact ⟨rfl, rfl⟩
      · rcases List.mem_singleton.mp hs with rfl
        exact ⟨rfl, rfl⟩)⟩

/-! ## The legacy minimum-curvature implementation computes the same trace -/

/-- The legacy per-sub-step displacement
`0.5*delta_md*(c0+c1)*rf/segment_steps` equals the current
`0.5*md_increment*(c0+c1)*rf` with `md_increment = delta_md/segment_steps`,
so the two sub-step loops agree. -/
theorem legacySubSteps_eq (m0 delta a0 d0 a1 d1 : ℝ) (n0 : ℕ) :
    ∀ (n : ℕ) (c : Cursor),
      legacySubSteps m0 delta (delta / (n0 : ℝ)) a0 d0 a1 d1
          (ratioFactor a0 d0 a1 d1) n0 c n
        = subSteps m0 delta (delta / (n0 : ℝ)) a0 d0 a1 d1 .minimum_curvature c n := by
  intro n
  induction n with
  | zero => intro c; simp [legacySubSteps, subSteps]
  | succ n ih =>
      intro c
      rw [legacySubSteps, subSteps]
      have hx : 0.5 * delta * ((direction_cosines a0 d0).1 + (direction_cosines a1 d1).1) *
            ratioFactor a0 d0 a1 d1 / (n0 : ℝ)
          = (segment_displacement (delta / (n0 : ℝ)) a0 d0 a1 d1 .minimum_curvature).1 := by
        simp only [segment_displacement]; ring
      have hy : 0.5 * delta * ((direction_cosines a0 d0).2.1 + (direction_cosines a1 d1).2.1) *
            ratioFactor a0 d0 a1 d1 / (n0 : ℝ)
          = (segment_displacement (delta / (n0 : ℝ)) a0 d0 a1 d1 .minimum_curvature).2.1 := by
        simp only [segment_displacement]; ring
      have hz : 0.5 * delta * ((direction_cosines a0 d0).2.2 + (direction_cosines a1 d1).2.2) *
            ratioFactor a0 d0 a1 d1 / (n0 : ℝ)
          = (segment_displacement (delta / (n0 : ℝ)) a0 d0 a1 d1 .minimum_curvature).2.2.1 := by
        simp only [segment_displacement]; ring
      rw [hx, hy, hz, ih]
      simp [recordOrient]

/-- The legacy segment loop equals the current one at minimum curvature. -/
theorem legacyRunSegments_eq (step : ℝ) :
    ∀ (l : List Station) (c : Cursor),
      legacyRunSegments step c l = runSegments step .minimum_curvature c l := by
  intro l
  induction l with
  | nil => intro c; simp [legacyRunSegments, runSegments]
  | cons s0 l ih =>
      intro c
      match l with
      | [] => simp [legacyRunSegments, runSegments]
      | s1 :: rest =>
          simp only [legacyRunSegments, runSegments]
          by_cases hd : s1.md - s0.md ≤ 0
          · rw [if_pos hd, if_pos hd, ih c]
          · rw [if_neg hd, if_neg hd, legacySubSteps_eq, ih]

/-- The legacy per-hole desurvey equals the current one. -/
theorem legacyDesurveyHole_eq (cx cy cz step : ℝ) (stations : List Station) :
    legacyDesurveyHole cx cy cz stations step
      = desurveyHole cx cy cz stations step .minimum_curvature := by
  match stations with
  | [] => rfl
  | s :: tl =>
      simp only [legacyDesurveyHole, desurveyHole]
      rw [legacyRunSegments_eq step (s :: tl) ⟨s.md, cx, cy, cz⟩]

/-- C10: for every grouped collar/survey input and every step, the legacy
`minimum_curvature_desurvey` and the current `_desurvey` with
`method="minimum_curvature"` produce the same trace: same hole ids, same
`md`, positions and orientations, row for row. -/
theorem legacy_desurvey_eq_minimum_curvature (holes : List Hole) (step : ℝ) :
    legacyDesurvey holes step = desurvey holes step .minimum_curvature := by
  simp only [legacyDesurvey, desurvey, legacyDesurveyHole_eq]

/-! ## The straight-down example hole -/

/-- At azimuth 0 and dip −90 the direction cosines are `(0, 0, 1)`:
`cc = -sin(-90°) = +1`, pointing towards positive `z`. -/
theorem direction_cosines_down : direction_cosines 0 (-90) = (0, 0, 1) := by
  simp only [direction_cosines, degToRad]
  rw [show (0 : ℝ) * Real.pi / 180 = 0 by ring,
    show (-90 : ℝ) * Real.pi / 180 = -(Real.pi / 2) by ring,
    Real.sin_zero, Real.cos_zero, Real.cos_neg, Real.sin_neg,
    Real.cos_pi_div_two, Real.sin_pi_div_two]
  norm_num

/-- Segment displacement of the straight-down segment: `(0, 0, +delta)`. -/
theorem segment_displacement_down (m : ℝ) :
    segment_displacement m 0 (-90) 0 (-90) .minimum_curvature = (0, 0, m, 0, -90) := by
  rw [segment_displacement_const m 0 (-90) .minimum_curvature, direction_cosines_down]
  norm_num

/-- Full evaluation of the example hole of the spec: collar `(0,0,0)`,
stations `md=[0,100]`, `az=[0,0]`, `dip=[-90,-90]`, `step=10`, minimum
curvature.  Eleven vertices at `md = 0,10,…,100`, each with `x = y = 0`
and `z = +md`. -/
theorem straightDownTrace :
    desurveyHole 0 0 0 [⟨0, 0, -90⟩, ⟨100, 0, -90⟩] 10 .minimum_curvature
      = ⟨0, 0, 0, 0, 0, -90⟩ ::
          (List.range 10).map
            (fun k => ⟨((k : ℝ) + 1) * 10, 0, 0, ((k : ℝ) + 1) * 10, 0, -90⟩) := by
  show (⟨0, 0, 0, 0, 0, -90⟩ : Vertex) ::
      (runSegments 10 .minimum_curvature ⟨0, 0, 0, 0⟩ [⟨0, 0, -90⟩, ⟨100, 0, -90⟩]).2 = _
  rw [runSegments]
  norm_num
  rw [subSteps_closed]
  simp only [runSegments, Int.toNat_ofNat, List.append_nil]
  apply List.map_congr_left
  intro k hk
  rw [subStepVertex, segment_displacement_down]
  ext <;> simp [recordOrient] <;> ring_nf <;> exact Or.inl trivial

/-- The example trace with every record flattened to a tuple
`(md, x, y, z, azimuth, dip)`. -/
theorem straightDownTuples :
    (desurveyHole 0 0 0 [⟨0, 0, -90⟩, ⟨100, 0, -90⟩] 10 .minimum_curvature).map
        (fun v => (v.md, v.x, v.y, v.z, v.azimuth, v.dip))
      = [(0, 0, 0, 0, 0, -90), (10, 0, 0, 10, 0, -90), (20, 0, 0, 20, 0, -90),
         (30, 0, 0, 30, 0, -90), (40, 0, 0, 40, 0, -90), (50, 0, 0, 50, 0, -90),
         (60, 0, 0, 60, 0, -90), (70, 0, 0, 70, 0, -90), (80, 0, 0, 80, 0, -90),
         (90, 0, 0, 90, 0, -90), (100, 0, 0, 100, 0, -90)] := by
  rw [straightDownTrace, show List.range 10 = [0, 1, 2, 3, 4, 5, 6, 7, 8, 9] from rfl]
  norm_num

/-- C1, counterexample: on the spec's own example (collar `(0,0,0)`,
stations `md=[0,100]`, `az=[0,0]`, `dip=[-90,-90]`, `step=10`, minimum
curvature) the emitted vertices do NOT satisfy `z = -md`: the code's
`cc = -sin(dip)` gives `cc = +1` at `dip = -90`, so `z = +md`. -/
theorem straight_down_z_sign_counterexample :
    ¬ ∀ v ∈ desurveyHole 0 0 0 [⟨0, 0, -90⟩, ⟨100, 0, -90⟩] 10 .minimum_curvature,
        v.x = 0 ∧ v.y = 0 ∧ v.z = -v.md := by
  intro h
  have hmem : ((10 : ℝ), (0 : ℝ), (0 : ℝ), (10 : ℝ), (0 : ℝ), (-90 : ℝ)) ∈
      (desurveyHole 0 0 0 [⟨0, 0, -90⟩, ⟨100, 0, -90⟩] 10 .minimum_curvature).map
        (fun v => (v.md, v.x, v.y, v.z, v.azimuth, v.dip)) := by
    rw [straightDownTuples]
    exact List.mem_cons_of_mem _ (List.mem_cons_self _ _)
  obtain ⟨v, hv, htup⟩ := List.mem_map.mp hmem
  simp only [Prod.mk.injEq] at htup
  have hz := (h v hv).2.2
  rw [htup.1, htup.2.2.2.1] at hz
  norm_num at hz

/-- C1, amended: the example yields exactly 11 vertices at
`md = 0,10,…,100`, each with `x = 0`, `y = 0`, `z = +md` (not `-md`),
azimuth 0 and dip −90 throughout. -/
theorem straight_down_example_trace :
    ((desurveyHole 0 0 0 [⟨0, 0, -90⟩, ⟨100, 0, -90⟩] 10 .minimum_curvature).length = 11) ∧
    (desurveyHole 0 0 0 [⟨0, 0, -90⟩, ⟨100, 0, -90⟩] 10 .minimum_curvature).map
        (fun v => (v.md, v.x, v.y, v.z, v.azimuth, v.dip))
      = [(0, 0, 0, 0, 0, -90), (10, 0, 0, 10, 0, -90), (20, 0, 0, 20, 0, -90),
         (30, 0, 0, 30, 0, -90), (40, 0, 0, 40, 0, -90), (50, 0, 0, 50, 0, -90),
         (60, 0, 0, 60, 0, -90), (70, 0, 0, 70, 0, -90), (80, 0, 0, 80, 0, -90),
         (90, 0, 0, 90, 0, -90), (100, 0, 0, 100, 0, -90)] :=
  ⟨by
    have h := congrArg List.length straightDownTuples
    simpa using h,
    straightDownTuples⟩

/-! ## Composite conservation for `method="sum"` -/

theorem foldl_min_le_init (xs : List ℚ) : ∀ a : ℚ, xs.foldl min a ≤ a := by
  induction xs with
  | nil => intro a; simp
  | cons y xs ih => intro a; exact (ih (min a y)).trans (min_le_left a y)

theorem foldl_min_le_mem (xs : List ℚ) : ∀ (a x : ℚ), x ∈ xs → xs.foldl min a ≤ x := by
  induction xs with
  | nil => intro a x hx; cases hx
  | cons y xs ih =>
      intro a x hx
      rcases List.mem_cons.mp hx with rfl | hx
      · exact (foldl_min_le_init xs (min a x)).trans (min_le_right a x)
      · exact ih (min a y) x hx

theorem listMin_le (xs : List ℚ) (x : ℚ) (hx : x ∈ xs) : listMin xs ≤ x := by
  match xs, hx with
  | y :: ys, hx =>
      rcases List.mem_cons.mp hx with rfl | hx
      · exact foldl_min_le_init ys x
      · exact foldl_min_le_mem ys y x hx

theorem init_le_foldl_max (xs : List ℚ) : ∀ a : ℚ, a ≤ xs.foldl max a := by
  induction xs with
  | nil => intro a; simp
  | cons y xs ih => intro a; exact (le_max_left a y).trans (ih (max a y))

theorem mem_le_foldl_max (xs : List ℚ) : ∀ (a x : ℚ), x ∈ xs → x ≤ xs.foldl max a := by
  induction xs with
  | nil => intro a x hx; cases hx
  | cons y xs ih =>
      intro a x hx
      rcases List.mem_cons.mp hx with rfl | hx
      · exact (le_max_right a x).trans (init_le_foldl_max xs (max a x))
      · exact ih (max a y) x hx

theorem le_listMax (xs : List ℚ) (x : ℚ) (hx : x ∈ xs) : x ≤ listMax xs := by
  match xs, hx with
  | y :: ys, hx =>
      rcases List.mem_cons.mp hx with rfl | hx
      · exact init_le_foldl_max ys x
      · exact mem_le_foldl_max ys y x hx

/-- A row excluded from a bin's window (`from >= c_to` or `to <= c_from`)
has zero clamped overlap with that bin. -/
theorem overlapLen_zero (r : IntervalRow) (a b : ℚ)
    (hcond : ¬(r.fromDepth < b ∧ a < r.toDepth)) : overlapLen r a b = 0 := by
  unfold overlapLen
  rcases not_and_or.mp hcond with h | h
  · push_neg at h
    have h1 : min r.toDepth b ≤ b := min_le_right _ _
    have h2 : r.fromDepth ≤ max r.fromDepth a := le_max_left _ _
    have : min r.toDepth b - max r.fromDepth a ≤ 0 := by linarith
    exact max_eq_left this
  · push_neg at h
    have h1 : min r.toDepth b ≤ r.toDepth := min_le_left _ _
    have h2 : a ≤ max r.fromDepth a := le_max_right _ _
    have : min r.toDepth b - max r.fromDepth a ≤ 0 := by linarith
    exact max_eq_left this

/-- The window filter drops only rows with zero overlap, so the
overlap-weighted sum over the window equals the one over the whole group. -/
theorem window_sum_eq (g : List IntervalRow) (a b : ℚ) :
    ((g.filter (fun r => decide (r.fromDepth < b) && decide (a < r.toDepth))).map
        (fun r => r.value * overlapLen r a b)).sum
      = (g.map (fun r => r.value * overlapLen r a b)).sum := by
  induction g with
  | nil => rfl
  | cons r g ih =>
      by_cases hc : r.fromDepth < b ∧ a < r.toDepth
      · rw [List.filter_cons_of_pos (by simpa using hc), List.map_cons, List.map_cons,
          List.sum_cons, List.sum_cons, ih]
      · rw [List.filter_cons_of_neg (by simpa using hc), List.map_cons, List.sum_cons, ih,
          overlapLen_zero r a b hc, mul_zero, zero_add]

/-- The total of the `method="sum"` composite rows, bin by bin, equals the
double sum of `value * overlap` over all bins and all rows of the group
(empty windows contribute zero either way). -/
theorem compositeHole_sum_eq (hid : ℕ) (g : List IntervalRow) (len : ℚ) :
    ((compositeHole hid g len .sum).map (·.value)).sum
      = (((arange (listMin (g.map (·.fromDepth))) (listMax (g.map (·.toDepth)) + len) len).zip
            (arange (listMin (g.map (·.fromDepth))) (listMax (g.map (·.toDepth)) + len)
              len).tail).map
          (fun bin => (g.map (fun r => r.value * overlapLen r bin.1 bin.2)).sum)).sum := by
  simp only [compositeHole]
  generalize (arange (listMin (g.map (·.fromDepth))) (listMax (g.map (·.toDepth)) + len) len).zip
      (arange (listMin (g.map (·.fromDepth))) (listMax (g.map (·.toDepth)) + len) len).tail
    = pairs
  induction pairs with
  | nil => rfl
  | cons p pairs ih =>
      rw [List.map_cons, List.sum_cons, ← window_sum_eq g p.1 p.2, List.filterMap_cons]
      by_cases he : (g.filter (fun r =>
          decide (r.fromDepth < p.2) && decide (p.1 < r.toDepth))).isEmpty
      · rw [if_pos he]
        rw [List.isEmpty_iff] at he
        rw [he, ih]
        simp
      · rw [if_neg he, List.map_cons, List.sum_cons, ih]
        rfl

/-- Pointwise step of the telescoping argument: for a valid interval
`[f, t]` and a bin `[a, b]` with `a ≤ b`, the clamped overlap is the
increment of `x ↦ max f (min t x)` across the bin. -/
theorem overlap_step (f t a b : ℚ) (hft : f ≤ t) (hab : a ≤ b) :
    max 0 (min t b - max f a) = max f (min t b) - max f (min t a) := by
  rcases le_total t a with hta | hta
  · have hb : t ≤ b := hta.trans hab
    rw [min_eq_left hta, min_eq_left hb]
    have h1 : a ≤ max f a := le_max_right _ _
    rw [max_eq_left (by linarith : t - max f a ≤ 0)]
    ring
  · rw [min_eq_right hta]
    rcases le_total b f with hbf | hfb
    · have hbt : b ≤ t := hbf.trans hft
      rw [min_eq_right hbt, max_eq_left hbf, max_eq_left (hab.trans hbf),
        max_eq_left (by linarith : b - f ≤ 0)]
      ring
    · have hfmin : f ≤ min t b := le_min hft hfb
      have hmax : max f a ≤ min t b := max_le hfmin (le_min hta hab)
      rw [max_eq_right hfmin, max_eq_right (by linarith : (0 : ℚ) ≤ min t b - max f a)]

/-- Telescoping the clamped overlaps of one valid interval across a bin
ladder `e k = start + k*len` covering it yields its full length. -/
theorem overlap_telescope (f t start len : ℚ) (n : ℕ) (hft : f ≤ t) (hlen : 0 ≤ len)
    (hf : start ≤ f) (ht : t ≤ start + n * len) :
    ∑ k in Finset.range n,
        max 0 (min t (start + ((k : ℚ) + 1) * len) - max f (start + (k : ℚ) * len))
      = t - f := by
  have htel := Finset.sum_range_sub (fun j : ℕ => max f (min t (start + (j : ℚ) * len))) n
  have hcongr : ∑ k in Finset.range n,
      max 0 (min t (start + ((k : ℚ) + 1) * len) - max f (start + (k : ℚ) * len))
        = ∑ k in Finset.range n,
            ((fun j : ℕ => max f (min t (start + (j : ℚ) * len))) (k + 1)
              - (fun j : ℕ => max f (min t (start + (j : ℚ) * len))) k) := by
    apply Finset.sum_congr rfl
    intro k _
    simp only []
    have hcast : ((k + 1 : ℕ) : ℚ) = (k : ℚ) + 1 := by push_cast; ring
    rw [hcast]
    apply overlap_step f t _ _ hft
    nlinarith [hlen]
  rw [hcongr, htel]
  have h0 : start + ((0 : ℕ) : ℚ) * len = start := by push_cast; ring
  rw [h0, min_eq_left ht, max_eq_right hft, min_eq_right (hf.trans hft), max_eq_left hf]

/-- When the covered range is an exact multiple of the bin length,
`np.arange(start, end + length, length)` is the ladder of `n + 1` edges
`start, start+len, …, start+n·len`. -/
theorem arange_tile (start len : ℚ) (n : ℕ) (hlen : 0 < len) :
    arange start (start + (n : ℚ) * len + len) len
      = (List.range (n + 1)).map (fun k : ℕ => start + (k : ℚ) * len) := by
  unfold arange
  have h1 : (start + (n : ℚ) * len + len - start) / len = (n : ℚ) + 1 := by
    field_simp
    ring
  have hcount : (Int.ceil ((start + (n : ℚ) * len + len - start) / len)).toNat = n + 1 := by
    rw [h1, show ((n : ℚ) + 1) = ((n + 1 : ℕ) : ℚ) by push_cast; ring, Int.ceil_natCast]
    simp
  rw [hcount]

/-- Pairing a mapped ladder with its own tail lists the consecutive pairs. -/
theorem zip_tail_map_range {α : Type} :
    ∀ (n : ℕ) (f : ℕ → α),
      (((List.range (n + 1)).map f).zip (((List.range (n + 1)).map f).tail))
        = (List.range n).map (fun k => (f k, f (k + 1))) := by
  intro n
  induction n with
  | zero => intro f; rfl
  | succ n ih =>
      intro f
      have hL : (List.range (n + 1 + 1)).map f
          = f 0 :: (List.range (n + 1)).map (f ∘ Nat.succ) := by
        rw [List.range_succ_eq_map, List.map_cons, List.map_map]
      have hM : (List.range (n + 1)).map (f ∘ Nat.succ)
          = (f ∘ Nat.succ) 0 :: (List.range n).map ((f ∘ Nat.succ) ∘ Nat.succ) := by
        rw [List.range_succ_eq_map, List.map_cons, List.map_map]
      have hih := ih (f ∘ Nat.succ)
      rw [hM, List.tail_cons] at hih
      rw [hL, List.tail_cons, hM, List.zip_cons_cons, ← hM]  -- restore M inside the zip head
      rw [hM, hih]
      rw [List.range_succ_eq_map, List.map_cons, List.map_map]
      rfl

/-- A list-range sum is the matching `Finset.range` sum. -/
theorem list_range_map_sum (f : ℕ → ℚ) (n : ℕ) :
    ((List.range n).map f).sum = ∑ k in Finset.range n, f k := by
  induction n with
  | zero => rfl
  | succ n ih =>
      rw [List.range_succ, List.map_append, List.sum_append, Finset.sum_range_succ, ih]
      simp

/-- Exchange a `Finset` sum with a list-of-rows sum. -/
theorem sum_swap_list (s : Finset ℕ) (g : List IntervalRow) (F : ℕ → IntervalRow → ℚ) :
    ∑ k in s, (g.map (F k)).sum = (g.map (fun r => ∑ k in s, F k r)).sum := by
  induction g with
  | nil => simp
  | cons r g ih => simp [Finset.sum_add_distrib, ih]

/-- C5: for a hole whose bins exactly tile the covered range
`[min from, max to]` (an exact multiple `n` of the bin length), the
`method="sum"` composite values total to the sum of
`value * (to - from)` over the hole's source intervals. -/
theorem composite_sum_conservation (hid : ℕ) (g : List IntervalRow) (len : ℚ) (n : ℕ)
    (hne : g ≠ []) (hlen : 0 < len)
    (hvalid : ∀ r ∈ g, r.fromDepth ≤ r.toDepth)
    (htile : listMax (g.map (·.toDepth)) = listMin (g.map (·.fromDepth)) + (n : ℚ) * len) :
    ((compositeHole hid g len .sum).map (·.value)).sum
      = (g.map (fun r => r.value * (r.toDepth - r.fromDepth))).sum := by
  clear hne
  rw [compositeHole_sum_eq, htile, arange_tile _ _ _ hlen,
    zip_tail_map_range n (fun k : ℕ => listMin (g.map (·.fromDepth)) + (k : ℚ) * len),
    List.map_map, list_range_map_sum]
  simp only [Function.comp]
  rw [sum_swap_list (Finset.range n) g
    (fun k r => r.value * overlapLen r (listMin (g.map (·.fromDepth)) + (k : ℚ) * len)
      (listMin (g.map (·.fromDepth)) + ((k + 1 : ℕ) : ℚ) * len))]
  apply congrArg
  apply List.map_congr_left
  intro r hr
  rw [← Finset.mul_sum]
  congr 1
  have hf : listMin (g.map (·.fromDepth)) ≤ r.fromDepth :=
    listMin_le _ _ (List.mem_map_of_mem _ hr)
  have ht : r.toDepth ≤ listMin (g.map (·.fromDepth)) + (n : ℚ) * len := by
    rw [← htile]
    exact le_listMax _ _ (List.mem_map_of_mem _ hr)
  have htel := overlap_telescope r.fromDepth r.toDepth (listMin (g.map (·.fromDepth))) len n
    (hvalid r hr) hlen.le hf ht
  simp only [overlapLen]
  push_cast
  exact htel

/-- Concrete instantiation of `composite_sum_conservation`: two intervals
`[0,2]` (value 3) and `[2,5]` (value 4) and unit bins tiling `[0,5]`. -/
theorem composite_sum_conservation_witness :
    (([⟨1, 0, 2, 3⟩, ⟨1, 2, 5, 4⟩] : List IntervalRow) ≠ []) ∧
    ((0 : ℚ) < 1) ∧
    (∀ r ∈ ([⟨1, 0, 2, 3⟩, ⟨1, 2, 5, 4⟩] : List IntervalRow), r.fromDepth ≤ r.toDepth) ∧
    (listMax (([⟨1, 0, 2, 3⟩, ⟨1, 2, 5, 4⟩] : List IntervalRow).map (·.toDepth))
      = listMin (([⟨1, 0, 2, 3⟩, ⟨1, 2, 5, 4⟩] : List IntervalRow).map (·.fromDepth))
        + ((5 : ℕ) : ℚ) * 1) ∧
    ((compositeHole 1 [⟨1, 0, 2, 3⟩, ⟨1, 2, 5, 4⟩] 1 .sum).map (·.value)).sum
      = (([⟨1, 0, 2, 3⟩, ⟨1, 2, 5, 4⟩] : List IntervalRow).map
          (fun r => r.value * (r.toDepth - r.fromDepth))).sum := by
  have hvalid : ∀ r ∈ ([⟨1, 0, 2, 3⟩, ⟨1, 2, 5, 4⟩] : List IntervalRow),
      r.fromDepth ≤ r.toDepth := by
    intro r hr
    rcases List.mem_cons.mp hr with rfl | hr
    · norm_num
    · rcases List.mem_singleton.mp hr with rfl
      norm_num
  have htile : listMax (([⟨1, 0, 2, 3⟩, ⟨1, 2, 5, 4⟩] : List IntervalRow).map (·.toDepth))
      = listMin (([⟨1, 0, 2, 3⟩, ⟨1, 2, 5, 4⟩] : List IntervalRow).map (·.fromDepth))
        + ((5 : ℕ) : ℚ) * 1 := by
    norm_num [listMax, listMin, max_def, min_def]
  exact ⟨List.cons_ne_nil _ _, by norm_num, hvalid, htile,
    composite_sum_conservation 1 _ 1 5 (List.cons_ne_nil _ _) (by norm_num) hvalid htile⟩

/-! ## Per-hole blocks of a grouped output -/

section Blocks

variable {β : Type}

theorem filter_flatMap_of_not_mem (keys : List ℕ) (block : ℕ → List β) (keyOf : β → ℕ)
    (hid : ℕ) (hblock : ∀ k ∈ keys, ∀ b ∈ block k, keyOf b = k) (hmem : hid ∉ keys) :
    (keys.flatMap block).filter (fun b => keyOf b == hid) = [] := by
  induction keys with
  | nil => rfl
  | cons k ks ih =>
      rw [List.flatMap_cons, List.filter_append]
      have hk : k ≠ hid := fun h => hmem (h ▸ List.mem_cons_self _ _)
      have h1 : (block k).filter (fun b => keyOf b == hid) = [] := by
        rw [List.filter_eq_nil_iff]
        intro b hb
        rw [hblock k (List.mem_cons_self _ _) b hb]
        simpa using hk
      rw [h1, List.nil_append]
      exact ih (fun j hj => hblock j (List.mem_cons_of_mem _ hj))
        (fun h => hmem (List.mem_cons_of_mem _ h))

theorem filter_flatMap_of_mem (keys : List ℕ) (block : ℕ → List β) (keyOf : β → ℕ)
    (hid : ℕ) (hnodup : keys.Nodup) (hblock : ∀ k ∈ keys, ∀ b ∈ block k, keyOf b = k)
    (hmem : hid ∈ keys) :
    (keys.flatMap block).filter (fun b => keyOf b == hid) = block hid := by
  induction keys with
  | nil => cases hmem
  | cons k ks ih =>
      rw [List.flatMap_cons, List.filter_append]
      rcases List.mem_cons.mp hmem with rfl | hmem'
      · have h1 : (block hid).filter (fun b => keyOf b == hid) = block hid := by
          rw [List.filter_eq_self]
          intro b hb
          rw [hblock hid (List.mem_cons_self _ _) b hb]
          simp
        have h2 : (ks.flatMap block).filter (fun b => keyOf b == hid) = [] :=
          filter_flatMap_of_not_mem ks block keyOf hid
            (fun j hj => hblock j (List.mem_cons_of_mem _ hj))
            (List.Nodup.not_mem hnodup)
        rw [h1, h2, List.append_nil]
      · have hk : k ≠ hid := by
          rintro rfl
          exact (List.Nodup.not_mem hnodup) hmem'
        have h1 : (block k).filter (fun b => keyOf b == hid) = [] := by
          rw [List.filter_eq_nil_iff]
          intro b hb
          rw [hblock k (List.mem_cons_self _ _) b hb]
          simpa using hk
        rw [h1, List.nil_append]
        exact ih (List.Nodup.of_cons hnodup)
          (fun j hj => hblock j (List.mem_cons_of_mem _ hj)) hmem'

end Blocks

/-! ## Single-vertex holes under `resample_trace` -/

/-- Every row `resampleHole` emits carries the hole id it was called
with. -/
theorem resampleHole_hole_id (hid : ℕ) (g : List TraceRow) (step : ℚ) :
    ∀ b ∈ resampleHole hid g step, b.hole_id = hid := by
  intro b hb
  simp only [resampleHole] at hb
  obtain ⟨m, _, rfl⟩ := List.mem_map.mp hb
  rfl

/-- A one-row group resamples to a single row: the vertex itself.
`np.arange(md, md + step, step)` has exactly one sample and `np.interp`
against a single point returns that point's value. -/
theorem resampleHole_single (hid : ℕ) (r : TraceRow) (step : ℚ) (hstep : 0 < step) :
    resampleHole hid [r] step = [⟨hid, r.md, r.easting, r.northing, r.elevation⟩] := by
  have hc : (Int.ceil ((r.md + step - r.md) / step)).toNat = 1 := by
    rw [show (r.md + step - r.md) / step = 1 by field_simp]
    norm_num
  simp only [resampleHole, List.insertionSort, List.orderedInsert, List.map_cons, List.map_nil,
    listMin, listMax, List.foldl_nil, arange, hc]
  rw [show List.range 1 = [0] from rfl]
  simp [interpPairs]

/-- C6, counterexample: a trace with a single vertex for hole 1 makes
`resample_trace` emit one row (the vertex itself), not zero rows. -/
theorem resample_trace_single_vertex_counterexample :
    resample_trace [⟨1, 5, 10, 20, 30⟩] 1 = [⟨1, 5, 10, 20, 30⟩] ∧
      ([(⟨1, 5, 10, 20, 30⟩ : TraceRow)] ≠ ([] : List TraceRow)) := by
  constructor
  · have hne : ¬([(⟨1, 5, 10, 20, 30⟩ : TraceRow)] = ([] : List TraceRow)) := by simp
    simp only [resample_trace, if_neg hne]
    rw [show List.insertionSort (· ≤ ·)
        (([(⟨1, 5, 10, 20, 30⟩ : TraceRow)].map (·.hole_id)).dedup) = [1] from rfl]
    simp only [List.flatMap_cons, List.flatMap_nil, List.append_nil]
    rw [show ([(⟨1, 5, 10, 20, 30⟩ : TraceRow)].filter (fun r => r.hole_id == 1))
        = [⟨1, 5, 10, 20, 30⟩] from rfl]
    exact resampleHole_single 1 ⟨1, 5, 10, 20, 30⟩ 1 (by norm_num)
  · exact List.cons_ne_nil _ _

/-- C6, amended: for every trace input and positive step, a hole with
fewer than two vertices (i.e. exactly one row, since groups are
non-empty) contributes exactly one output row — a copy of that vertex —
rather than no rows. -/
theorem resample_trace_single_vertex_hole (df : List TraceRow) (step : ℚ) (hid : ℕ)
    (r : TraceRow) (hstep : 0 < step)
    (hfilter : df.filter (fun row => row.hole_id == hid) = [r]) :
    (resample_trace df step).filter (fun row => row.hole_id == hid)
      = [⟨hid, r.md, r.easting, r.northing, r.elevation⟩] := by
  have hdf : df ≠ [] := by
    intro h
    rw [h] at hfilter
    simp at hfilter
  rw [resample_trace, if_neg hdf]
  have hrmem : r ∈ df.filter (fun row => row.hole_id == hid) := by
    rw [hfilter]; exact List.mem_cons_self _ _
  have hr' := List.mem_filter.mp hrmem
  have hhole : r.hole_id = hid := by simpa using hr'.2
  have hnodup : (List.insertionSort (· ≤ ·) ((df.map (·.hole_id)).dedup)).Nodup :=
    (List.perm_insertionSort (· ≤ ·) ((df.map (·.hole_id)).dedup)).nodup_iff.mpr
      (List.nodup_dedup _)
  have hmem : hid ∈ List.insertionSort (· ≤ ·) ((df.map (·.hole_id)).dedup) := by
    rw [(List.perm_insertionSort (· ≤ ·) ((df.map (·.hole_id)).dedup)).mem_iff,
      List.mem_dedup]
    exact hhole ▸ List.mem_map_of_mem _ hr'.1
  rw [filter_flatMap_of_mem _ _ _ hid hnodup
    (fun k _ => resampleHole_hole_id k (df.filter (fun row => row.hole_id == k)) step) hmem,
    hfilter]
  exact resampleHole_single hid r step hstep

/-! ## Ordering facts about `attach_assay_positions` -/

instance : IsTotal AssayRow assayLE :=
  ⟨by
    intro a b
    rcases lt_trichotomy a.hole_id b.hole_id with h | h | h
    · exact Or.inl (Or.inl h)
    · rcases lt_trichotomy a.fromDepth b.fromDepth with h2 | h2 | h2
      · exact Or.inl (Or.inr ⟨h, Or.inl h2⟩)
      · rcases le_total a.toDepth b.toDepth with h3 | h3
        · exact Or.inl (Or.inr ⟨h, Or.inr ⟨h2, h3⟩⟩)
        · exact Or.inr (Or.inr ⟨h.symm, Or.inr ⟨h2.symm, h3⟩⟩)
      · exact Or.inr (Or.inr ⟨h.symm, Or.inl h2⟩)
    · exact Or.inr (Or.inl h)⟩

instance : IsTrans AssayRow assayLE :=
  ⟨by
    intro a b c hab hbc
    rcases hab with h1 | ⟨he1, hab'⟩
    · rcases hbc with h2 | ⟨he2, _⟩
      · exact Or.inl (h1.trans h2)
      · exact Or.inl (he2 ▸ h1)
    · rcases hbc with h2 | ⟨he2, hbc'⟩
      · exact Or.inl (he1 ▸ h2)
      · refine Or.inr ⟨he1.trans he2, ?_⟩
        rcases hab' with h3 | ⟨hf1, h4⟩
        · rcases hbc' with h5 | ⟨hf2, _⟩
          · exact Or.inl (h3.trans h5)
          · exact Or.inl (hf2 ▸ h3)
        · rcases hbc' with h5 | ⟨hf2, h6⟩
          · exact Or.inl (hf1 ▸ h5)
          · exact Or.inr ⟨hf1.trans hf2, h4.trans h6⟩⟩

instance : IsTotal TraceVert traceVertLE :=
  ⟨by
    intro a b
    rcases lt_trichotomy a.hole_id b.hole_id with h | h | h
    · exact Or.inl (Or.inl h)
    · rcases le_total a.md b.md with h2 | h2
      · exact Or.inl (Or.inr ⟨h, h2⟩)
      · exact Or.inr (Or.inr ⟨h.symm, h2⟩)
    · exact Or.inr (Or.inl h)⟩

instance : IsTrans TraceVert traceVertLE :=
  ⟨by
    intro a b c hab hbc
    rcases hab with h1 | ⟨he1, h2⟩
    · rcases hbc with h3 | ⟨he3, _⟩
      · exact Or.inl (h1.trans h3)
      · exact Or.inl (he3 ▸ h1)
    · rcases hbc with h3 | ⟨he3, h4⟩
      · exact Or.inl (he1 ▸ h3)
      · exact Or.inr ⟨he1.trans he3, h2.trans h4⟩⟩

instance : IsTotal (AssayRow × ℚ) midLE := ⟨fun a b => le_total a.2 b.2⟩

instance : IsTrans (AssayRow × ℚ) midLE := ⟨fun _ _ _ h1 h2 => h1.trans h2⟩

/-- Unfolding of the main path of `attach_assay_positions`. -/
theorem attach_eq (assays : List AssayRow) (traces : List TraceVert)
    (hA : assays ≠ []) (hT : traces ≠ []) :
    attach_assay_positions assays traces
      = ((((List.insertionSort assayLE assays).map
            (fun a => (a, (a.fromDepth + a.toDepth) / 2))).map
              (fun p => p.1.hole_id)).dedup).flatMap
          (fun hid =>
            attachHole hid
              ((List.insertionSort assayLE assays).map
                (fun a => (a, (a.fromDepth + a.toDepth) / 2)))
              (List.insertionSort traceVertLE traces)) := by
  rw [attach_assay_positions, if_neg (by simp [hA, hT] : ¬(assays = [] ∨ traces = []))]

/-- Every row of the per-hole body carries that hole's id. -/
theorem attachHole_hole_id (hid : ℕ) (withMid : List (AssayRow × ℚ))
    (ts : List TraceVert) : ∀ b ∈ attachHole hid withMid ts, b.hole_id = hid := by
  intro b hb
  simp only [attachHole] at hb
  split at hb
  · obtain ⟨p, hp, rfl⟩ := List.mem_map.mp hb
    have := (List.mem_filter.mp hp).2
    simpa using this
  · obtain ⟨p, hp, rfl⟩ := List.mem_map.mp hb
    have hp' : p ∈ withMid.filter (fun p => p.1.hole_id == hid) :=
      (List.perm_insertionSort midLE _).mem_iff.mp hp
    have := (List.mem_filter.mp hp').2
    simpa using this

/-- The hole ids the per-hole loop runs over are strictly ascending. -/
theorem attach_holes_sorted (assays : List AssayRow) :
    List.Pairwise (· < ·)
      ((((List.insertionSort assayLE assays).map
          (fun a => (a, (a.fromDepth + a.toDepth) / 2))).map
            (fun p => p.1.hole_id)).dedup) := by
  have hs : List.Pairwise assayLE (List.insertionSort assayLE assays) :=
    List.sorted_insertionSort assayLE assays
  have h1 : List.Pairwise (· ≤ ·) (((List.insertionSort assayLE assays).map
      (fun a => (a, (a.fromDepth + a.toDepth) / 2))).map (fun p => p.1.hole_id)) := by
    rw [List.map_map]
    refine hs.map _ ?_
    intro a b hab
    show a.hole_id ≤ b.hole_id
    rcases hab with h | ⟨h, _⟩
    · exact le_of_lt h
    · exact le_of_eq h
  have h2 := h1.sublist (List.dedup_sublist _)
  have h3 : (((List.insertionSort assayLE assays).map
      (fun a => (a, (a.fromDepth + a.toDepth) / 2))).map
        (fun p => p.1.hole_id)).dedup.Nodup := List.nodup_dedup _
  exact (h2.and h3).imp (fun h => lt_of_le_of_ne h.1 h.2)

theorem flatMap_keyOf_mem {β : Type} (keys : List ℕ) (block : ℕ → List β) (keyOf : β → ℕ)
    (hblock : ∀ k ∈ keys, ∀ b ∈ block k, keyOf b = k) :
    ∀ b ∈ keys.flatMap block, keyOf b ∈ keys := by
  intro b hb
  obtain ⟨k, hk, hbk⟩ := List.mem_flatMap.mp hb
  rw [hblock k hk b hbk]
  exact hk

theorem flatMap_keys_pairwise {β : Type} (keys : List ℕ) (block : ℕ → List β)
    (keyOf : β → ℕ) (hsorted : List.Pairwise (· < ·) keys)
    (hblock : ∀ k ∈ keys, ∀ b ∈ block k, keyOf b = k) :
    List.Pairwise (fun x y => keyOf x ≤ keyOf y) (keys.flatMap block) := by
  induction keys with
  | nil => exact List.Pairwise.nil
  | cons k ks ih =>
      rw [List.flatMap_cons, List.pairwise_append]
      refine ⟨?_, ih (List.Pairwise.of_cons hsorted)
        (fun j hj => hblock j (List.mem_cons_of_mem _ hj)), ?_⟩
      · have hall : ∀ a ∈ block k, ∀ b ∈ block k, keyOf a ≤ keyOf b := by
          intro a ha b hb
          rw [hblock k (List.mem_cons_self _ _) a ha, hblock k (List.mem_cons_self _ _) b hb]
        exact List.pairwise_of_forall_mem_list (fun a ha b hb => hall a ha b hb)
      · intro a ha b hb
        have hka := hblock k (List.mem_cons_self _ _) a ha
        have hkb : keyOf b ∈ ks := flatMap_keyOf_mem ks block keyOf
          (fun j hj => hblock j (List.mem_cons_of_mem _ hj)) b hb
        have hlt : k < keyOf b := (List.pairwise_cons.mp hsorted).1 _ hkb
        rw [hka]
        exact le_of_lt hlt

/-- C4, amended: for non-empty inputs, the output of
`attach_assay_positions` is grouped by hole in ascending hole order (the
sort applied by the implementation — not the order holes first appear in
the intervals input), and within each hole that has at least one trace
vertex the rows appear in ascending `mid` order. -/
theorem attach_output_ordering (assays : List AssayRow) (traces : List TraceVert)
    (hA : assays ≠ []) (hT : traces ≠ []) :
    List.Chain' (fun x y => x.hole_id ≤ y.hole_id) (attach_assay_positions assays traces) ∧
    ∀ hid, traces.filter (fun v => v.hole_id == hid) ≠ [] →
      List.Chain' (· ≤ ·)
        (((attach_assay_positions assays traces).filter
          (fun r => r.hole_id == hid)).filterMap (fun r => r.mid)) := by
  rw [attach_eq assays traces hA hT]
  set withMid := (List.insertionSort assayLE assays).map
    (fun a => (a, (a.fromDepth + a.toDepth) / 2)) with hwm
  set ts := List.insertionSort traceVertLE traces with hts
  set keys := (withMid.map (fun p => p.1.hole_id)).dedup with hkeys
  have hblock : ∀ k ∈ keys, ∀ b ∈ attachHole k withMid ts, b.hole_id = k :=
    fun k _ => attachHole_hole_id k withMid ts
  constructor
  · exact (flatMap_keys_pairwise keys _ AttachedRow.hole_id
      (attach_holes_sorted assays) hblock).chain'
  · intro hid hfil
    by_cases hmem : hid ∈ keys
    · rw [filter_flatMap_of_mem keys _ AttachedRow.hole_id hid (List.nodup_dedup _)
        hblock hmem]
      have htg : ¬(ts.filter (fun v => v.hole_id == hid)).isEmpty = true := by
        rw [List.isEmpty_iff]
        intro h
        apply hfil
        have hperm := (List.perm_insertionSort traceVertLE traces).filter
          (fun v => v.hole_id == hid)
        rw [← hts] at hperm
        rw [h] at hperm
        exact hperm.symm.eq_nil
      simp only [attachHole]
      rw [if_neg htg, List.filterMap_map]
      have : ((fun r : AttachedRow => r.mid) ∘ fun p : AssayRow × ℚ =>
          (⟨p.1.hole_id, p.1.fromDepth, p.1.toDepth, some p.2,
            (nearestVertex (ts.filter (fun v => v.hole_id == hid)) p.2).map
              TraceVert.pos⟩ : AttachedRow)) = fun p => some p.2 := rfl
      rw [this, show (fun p : AssayRow × ℚ => some p.2)
          = some ∘ (fun p : AssayRow × ℚ => p.2) from rfl,
        List.filterMap_eq_map]
      have hsorted : List.Pairwise midLE
          (List.insertionSort midLE (withMid.filter (fun p => p.1.hole_id == hid))) :=
        List.sorted_insertionSort midLE _
      exact (hsorted.map (fun p : AssayRow × ℚ => p.2)
        (fun a b h => (h : a.2 ≤ b.2))).chain'
    · rw [filter_flatMap_of_not_mem keys _ AttachedRow.hole_id hid hblock hmem]
      exact List.chain'_nil

/-- Both branches of the per-hole body emit one row per group row. -/
theorem attachHole_length (hid : ℕ) (withMid : List (AssayRow × ℚ))
    (ts : List TraceVert) :
    (attachHole hid withMid ts).length
      = (withMid.filter (fun p => p.1.hole_id == hid)).length := by
  simp only [attachHole]
  split
  · rw [List.length_map]
  · rw [List.length_map, (List.perm_insertionSort midLE _).length_eq]

/-- C4, counterexample: intervals listing hole 2 first and hole 1 second
come out grouped as hole 1 then hole 2 — ascending hole order, not the
order of first appearance in the intervals input. -/
theorem attach_hole_order_counterexample :
    ((attach_assay_positions [⟨2, 0, 10⟩, ⟨1, 0, 10⟩]
        [⟨1, 0, 0, 0, 0, 0, 0⟩, ⟨2, 0, 0, 0, 0, 0, 0⟩]).map (fun r => r.hole_id)
      = [1, 2]) ∧ (([1, 2] : List ℕ) ≠ [2, 1]) := by
  refine ⟨?_, by decide⟩
  rw [attach_eq _ _ (List.cons_ne_nil _ _) (List.cons_ne_nil _ _)]
  have hkeys : ((((List.insertionSort assayLE [⟨2, 0, 10⟩, ⟨1, 0, 10⟩]).map
      (fun a => (a, (a.fromDepth + a.toDepth) / 2))).map
        (fun p => p.1.hole_id)).dedup) = [1, 2] := by decide
  rw [hkeys, List.flatMap_cons, List.flatMap_cons, List.flatMap_nil, List.append_nil,
    List.map_append]
  have hb : ∀ hid : ℕ,
      (((List.insertionSort assayLE [⟨2, 0, 10⟩, ⟨1, 0, 10⟩]).map
        (fun a => (a, (a.fromDepth + a.toDepth) / 2))).filter
          (fun p => p.1.hole_id == hid)).length = 1 →
      (attachHole hid
          ((List.insertionSort assayLE [⟨2, 0, 10⟩, ⟨1, 0, 10⟩]).map
            (fun a => (a, (a.fromDepth + a.toDepth) / 2)))
          (List.insertionSort traceVertLE
            [⟨1, 0, 0, 0, 0, 0, 0⟩, ⟨2, 0, 0, 0, 0, 0, 0⟩])).map
        (fun r => r.hole_id) = [hid] := by
    intro hid hlen
    rw [show ([hid] : List ℕ) = List.replicate 1 hid from rfl]
    apply List.eq_replicate_iff.mpr
    constructor
    · rw [List.length_map, attachHole_length, hlen]
    · intro b hb
      obtain ⟨r, hr, rfl⟩ := List.mem_map.mp hb
      exact attachHole_hole_id hid _ _ r hr
  rw [hb 1 (by decide), hb 2 (by decide)]
  rfl

/-! ## The merge-asof candidates and their nearest-neighbour property -/

theorem lastLE_mem : ∀ (tg : List TraceVert) (m : ℚ) (b : TraceVert),
    lastLE tg m = some b → b ∈ tg := by
  intro tg
  induction tg with
  | nil => intro m b h; cases h
  | cons v vs ih =>
      intro m b h
      simp only [lastLE] at h
      cases hv : lastLE vs m with
      | some w =>
          rw [hv] at h
          obtain rfl : w = b := by simpa using h
          exact List.mem_cons_of_mem _ (ih m _ hv)
      | none =>
          rw [hv] at h
          split_ifs at h with hle
          obtain rfl : v = b := by simpa using h
          exact List.mem_cons_self _ _

theorem lastLE_le : ∀ (tg : List TraceVert) (m : ℚ) (b : TraceVert),
    lastLE tg m = some b → b.md ≤ m := by
  intro tg
  induction tg with
  | nil => intro m b h; cases h
  | cons v vs ih =>
      intro m b h
      simp only [lastLE] at h
      cases hv : lastLE vs m with
      | some w =>
          rw [hv] at h
          obtain rfl : w = b := by simpa using h
          exact ih m _ hv
      | none =>
          rw [hv] at h
          split_ifs at h with hle
          obtain rfl : v = b := by simpa using h
          exact hle

theorem lastLE_none : ∀ (tg : List TraceVert) (m : ℚ),
    lastLE tg m = none → ∀ w ∈ tg, m < w.md := by
  intro tg
  induction tg with
  | nil => intro m _ w hw; cases hw
  | cons v vs ih =>
      intro m h w hw
      simp only [lastLE] at h
      cases hv : lastLE vs m with
      | some u => rw [hv] at h; cases h
      | none =>
          rw [hv] at h
          split_ifs at h with hle
          rcases List.mem_cons.mp hw with rfl | hw
          · exact lt_of_not_le hle
          · exact ih m hv w hw

theorem lastLE_max : ∀ (tg : List TraceVert) (m : ℚ) (b : TraceVert),
    List.Pairwise (fun a b => a.md ≤ b.md) tg → lastLE tg m = some b →
      ∀ w ∈ tg, w.md ≤ m → w.md ≤ b.md := by
  intro tg
  induction tg with
  | nil => intro m b _ h; cases h
  | cons v vs ih =>
      intro m b hs h w hw hwm
      simp only [lastLE] at h
      cases hv : lastLE vs m with
      | some u =>
          rw [hv] at h
          obtain rfl : u = b := by simpa using h
          rcases List.mem_cons.mp hw with rfl | hw
          · exact (List.pairwise_cons.mp hs).1 _ (lastLE_mem vs m _ hv)
          · exact ih m _ (List.pairwise_cons.mp hs).2 hv w hw hwm
      | none =>
          rw [hv] at h
          split_ifs at h with hle
          obtain rfl : v = b := by simpa using h
          rcases List.mem_cons.mp hw with rfl | hw
          · exact le_refl _
          · exact absurd hwm (not_le_of_lt (lastLE_none vs m hv w hw))

theorem firstGE_mem (tg : List TraceVert) (m : ℚ) (f : TraceVert)
    (h : firstGE tg m = some f) : f ∈ tg :=
  List.mem_of_find?_eq_some h

theorem firstGE_ge (tg : List TraceVert) (m : ℚ) (f : TraceVert)
    (h : firstGE tg m = some f) : m ≤ f.md := by
  have := List.find?_some h
  simpa using this

theorem firstGE_none (tg : List TraceVert) (m : ℚ)
    (h : firstGE tg m = none) : ∀ w ∈ tg, w.md < m := by
  intro w hw
  have := List.find?_eq_none.mp h w hw
  simpa using lt_of_not_le (fun hc => this (by simpa using hc))

theorem firstGE_min : ∀ (tg : List TraceVert) (m : ℚ) (f : TraceVert),
    List.Pairwise (fun a b => a.md ≤ b.md) tg → firstGE tg m = some f →
      ∀ w ∈ tg, m ≤ w.md → f.md ≤ w.md := by
  intro tg
  induction tg with
  | nil => intro m f _ h; cases h
  | cons v vs ih =>
      intro m f hs h w hw hwm
      rw [firstGE] at h
      by_cases hp : m ≤ v.md
      · rw [List.find?_cons_of_pos _ (by simpa using hp)] at h
        obtain rfl : v = f := by simpa using h
        rcases List.mem_cons.mp hw with rfl | hw
        · exact le_refl _
        · exact (List.pairwise_cons.mp hs).1 w hw
      · rw [List.find?_cons_of_neg _ (by simpa using hp)] at h
        rcases List.mem_cons.mp hw with rfl | hw
        · exact absurd hwm hp
        · exact ih m f (List.pairwise_cons.mp hs).2 h w hw hwm

/-- `nearestVertex` on a non-empty md-sorted vertex list returns a vertex
of the list at minimal absolute distance from the key, and on ties the
earlier-depth one. -/
theorem nearestVertex_spec (tg : List TraceVert) (m : ℚ)
    (hs : List.Pairwise (fun a b => a.md ≤ b.md) tg) (hne : tg ≠ []) :
    ∃ v, nearestVertex tg m = some v ∧ v ∈ tg ∧
      (∀ w ∈ tg, |v.md - m| ≤ |w.md - m|) ∧
      (∀ w ∈ tg, |w.md - m| = |v.md - m| → v.md ≤ w.md) := by
  have habs_le : ∀ x : ℚ, x ≤ m → |x - m| = m - x := by
    intro x hx
    rw [abs_of_nonpos (by linarith)]
    ring
  have habs_ge : ∀ x : ℚ, m ≤ x → |x - m| = x - m := by
    intro x hx
    exact abs_of_nonneg (by linarith)
  cases hb : lastLE tg m with
  | none =>
      cases hf : firstGE tg m with
      | none =>
          obtain ⟨w, hw⟩ := List.exists_mem_of_ne_nil tg hne
          exact absurd (firstGE_none tg m hf w hw)
            (not_lt_of_le (le_of_lt (lastLE_none tg m hb w hw)))
      | some f =>
          have hfm := firstGE_ge tg m f hf
          have hmin : ∀ w ∈ tg, f.md ≤ w.md := fun w hw =>
            firstGE_min tg m f hs hf w hw (le_of_lt (lastLE_none tg m hb w hw))
          refine ⟨f, by simp only [nearestVertex, hb, hf], firstGE_mem tg m f hf, ?_, ?_⟩
          · intro w hw
            rw [habs_ge f.md hfm, habs_ge w.md (le_of_lt (lastLE_none tg m hb w hw))]
            linarith [hmin w hw]
          · intro w hw _
            exact hmin w hw
  | some b =>
      have hbm := lastLE_le tg m b hb
      have hbmem := lastLE_mem tg m b hb
      have hbmax := lastLE_max tg m b hs hb
      cases hf : firstGE tg m with
      | none =>
          have hwlt := firstGE_none tg m hf
          refine ⟨b, by simp only [nearestVertex, hb, hf], hbmem, ?_, ?_⟩
          · intro w hw
            rw [habs_le b.md hbm, habs_le w.md (le_of_lt (hwlt w hw))]
            linarith [hbmax w hw (le_of_lt (hwlt w hw))]
          · intro w hw htie
            rw [habs_le b.md hbm, habs_le w.md (le_of_lt (hwlt w hw))] at htie
            linarith
      | some f =>
          have hfm := firstGE_ge tg m f hf
          have hfmem := firstGE_mem tg m f hf
          have hfmin := firstGE_min tg m f hs hf
          have hnv : nearestVertex tg m
              = if m - b.md ≤ f.md - m then some b else some f := by
            simp only [nearestVertex, hb, hf]
          by_cases hcmp : m - b.md ≤ f.md - m
          · refine ⟨b, by rw [hnv, if_pos hcmp], hbmem, ?_, ?_⟩
            · intro w hw
              rw [habs_le b.md hbm]
              rcases le_total w.md m with hwm | hwm
              · rw [habs_le w.md hwm]
                linarith [hbmax w hw hwm]
              · rw [habs_ge w.md hwm]
                linarith [hfmin w hw hwm]
            · intro w hw htie
              rw [habs_le b.md hbm] at htie
              rcases le_total w.md m with hwm | hwm
              · rw [habs_le w.md hwm] at htie
                linarith
              · linarith
          · push_neg at hcmp
            refine ⟨f, by rw [hnv, if_neg (not_le.mpr hcmp)], hfmem, ?_, ?_⟩
            · intro w hw
              rw [habs_ge f.md hfm]
              rcases le_total w.md m with hwm | hwm
              · rw [habs_le w.md hwm]
                linarith [hbmax w hw hwm]
              · rw [habs_ge w.md hwm]
                linarith [hfmin w hw hwm]
            · intro w hw htie
              rw [habs_ge f.md hfm] at htie
              rcases le_total w.md m with hwm | hwm
              · rw [habs_le w.md hwm] at htie
                have : w.md ≤ b.md := hbmax w hw hwm
                linarith
              · rw [habs_ge w.md hwm] at htie
                linarith

/-- Within one hole, the sorted-trace filter is sorted by `md`. -/
theorem tracesSorted_filter_md_sorted (traces : List TraceVert) (hid : ℕ) :
    List.Pairwise (fun a b => a.md ≤ b.md)
      ((List.insertionSort traceVertLE traces).filter (fun v => v.hole_id == hid)) := by
  have hs : List.Pairwise traceVertLE (List.insertionSort traceVertLE traces) :=
    List.sorted_insertionSort traceVertLE traces
  have hsub : List.Pairwise traceVertLE
      ((List.insertionSort traceVertLE traces).filter (fun v => v.hole_id == hid)) :=
    hs.sublist (List.filter_sublist _)
  refine hsub.imp_of_mem ?_
  intro a b ha hb hab
  have ha' : a.hole_id = hid := by simpa using (List.mem_filter.mp ha).2
  have hb' : b.hole_id = hid := by simpa using (List.mem_filter.mp hb).2
  rcases hab with h | ⟨_, h⟩
  · rw [ha', hb'] at h
    exact absurd h (lt_irrefl _)
  · exact h

/-- Membership in a hole's trace group. -/
theorem mem_tgroup (traces : List TraceVert) (hid : ℕ) (v : TraceVert) :
    v ∈ (List.insertionSort traceVertLE traces).filter (fun w => w.hole_id == hid)
      ↔ v ∈ traces ∧ v.hole_id = hid := by
  rw [List.mem_filter, (List.perm_insertionSort traceVertLE traces).mem_iff]
  simp

/-- C3: every output row of `attach_assay_positions` whose hole has at
least one trace vertex carries `mid = (from+to)/2` and the
position/orientation block of a vertex of that hole minimizing
`|vertex.md - mid|`, ties resolving to the earlier depth. -/
theorem attach_nearest (assays : List AssayRow) (traces : List TraceVert) (r : AttachedRow)
    (hr : r ∈ attach_assay_positions assays traces)
    (hne : traces.filter (fun v => v.hole_id == r.hole_id) ≠ []) :
    r.mid = some ((r.fromDepth + r.toDepth) / 2) ∧
      ∃ v, v ∈ traces ∧ v.hole_id = r.hole_id ∧ r.pos = some v.pos ∧
        (∀ w ∈ traces, w.hole_id = r.hole_id →
          |v.md - (r.fromDepth + r.toDepth) / 2| ≤ |w.md - (r.fromDepth + r.toDepth) / 2|) ∧
        (∀ w ∈ traces, w.hole_id = r.hole_id →
          |w.md - (r.fromDepth + r.toDepth) / 2| = |v.md - (r.fromDepth + r.toDepth) / 2| →
            v.md ≤ w.md) := by
  by_cases hT : traces = []
  · rw [hT] at hne
    simp at hne
  by_cases hA : assays = []
  · rw [attach_assay_positions, if_pos (Or.inl hA), hA] at hr
    simp at hr
  rw [attach_eq assays traces hA hT] at hr
  obtain ⟨hid, hkmem, hrb⟩ := List.mem_flatMap.mp hr
  have hrhole : r.hole_id = hid := attachHole_hole_id hid _ _ r hrb
  simp only [attachHole] at hrb
  have htg : ¬((List.insertionSort traceVertLE traces).filter
      (fun v => v.hole_id == hid)).isEmpty = true := by
    rw [List.isEmpty_iff]
    intro h
    apply hne
    have hperm := (List.perm_insertionSort traceVertLE traces).filter
      (fun v => v.hole_id == hid)
    rw [h] at hperm
    rw [hrhole]
    exact hperm.symm.eq_nil
  rw [if_neg htg] at hrb
  obtain ⟨p, hp, rfl⟩ := List.mem_map.mp hrb
  have hpg := (List.perm_insertionSort midLE _).mem_iff.mp hp
  have hpw := (List.mem_filter.mp hpg).1
  have hphole : p.1.hole_id = hid := by simpa using (List.mem_filter.mp hpg).2
  obtain ⟨a, ha, hpa⟩ := List.mem_map.mp hpw
  have hmid : p.2 = (p.1.fromDepth + p.1.toDepth) / 2 := by rw [← hpa]
  constructor
  · show some p.2 = some ((p.1.fromDepth + p.1.toDepth) / 2)
    rw [hmid]
  · have hsorted := tracesSorted_filter_md_sorted traces hid
    have hne' : (List.insertionSort traceVertLE traces).filter
        (fun v => v.hole_id == hid) ≠ [] := by
      intro h
      exact htg (by rw [h]; rfl)
    obtain ⟨v, hveq, hvmem, hmin, htie⟩ := nearestVertex_spec _ p.2 hsorted hne'
    have hv' := (mem_tgroup traces hid v).mp hvmem
    refine ⟨v, hv'.1, ?_, ?_, ?_, ?_⟩
    · rw [hv'.2, hphole]
    · show (nearestVertex _ p.2).map TraceVert.pos = some v.pos
      rw [hveq]
      rfl
    · intro w hw hwhole
      have hwmem := (mem_tgroup traces hid w).mpr ⟨hw, by rw [hwhole]; exact hrhole⟩
      have h := hmin w hwmem
      rw [← hmid]
      exact h
    · intro w hw hwhole htieh
      have hwmem := (mem_tgroup traces hid w).mpr ⟨hw, by rw [hwhole]; exact hrhole⟩
      apply htie w hwmem
      rw [hmid]
      exact htieh

/-- Full evaluation of the spec's nearest-match example: one interval
`[8,20]` (mid 14) against a hole-1 trace at `md ∈ {0, 10, 20}`; the
vertex at `md = 10` is attached. -/
theorem attach_nearest_example_eval :
    attach_assay_positions [⟨1, 8, 20⟩]
        [⟨1, 0, 0, 0, 0, 0, 0⟩, ⟨1, 10, 5, 6, 7, 8, 9⟩, ⟨1, 20, 1, 2, 3, 4, 5⟩]
      = [⟨1, 8, 20, some 14, some ⟨10, 5, 6, 7, 8, 9⟩⟩] := by
  have hnv : nearestVertex
      [⟨1, 0, 0, 0, 0, 0, 0⟩, ⟨1, 10, 5, 6, 7, 8, 9⟩, ⟨1, 20, 1, 2, 3, 4, 5⟩]
      (((8 : ℚ) + 20) / 2) = some ⟨1, 10, 5, 6, 7, 8, 9⟩ := by
    norm_num [nearestVertex, lastLE, firstGE, List.find?]
  rw [attach_eq _ _ (List.cons_ne_nil _ _) (List.cons_ne_nil _ _)]
  rw [show ((((List.insertionSort assayLE [⟨1, 8, 20⟩]).map
      (fun a => (a, (a.fromDepth + a.toDepth) / 2))).map
        (fun p => p.1.hole_id)).dedup) = [1] from by decide]
  rw [List.flatMap_cons, List.flatMap_nil, List.append_nil]
  simp only [attachHole]
  rw [if_neg (by decide : ¬((List.insertionSort traceVertLE
      [⟨1, 0, 0, 0, 0, 0, 0⟩, ⟨1, 10, 5, 6, 7, 8, 9⟩, ⟨1, 20, 1, 2, 3, 4, 5⟩]).filter
        (fun v => v.hole_id == 1)).isEmpty = true)]
  rw [show (List.insertionSort traceVertLE
      [⟨1, 0, 0, 0, 0, 0, 0⟩, ⟨1, 10, 5, 6, 7, 8, 9⟩, ⟨1, 20, 1, 2, 3, 4, 5⟩]).filter
        (fun v => v.hole_id == 1)
      = [⟨1, 0, 0, 0, 0, 0, 0⟩, ⟨1, 10, 5, 6, 7, 8, 9⟩, ⟨1, 20, 1, 2, 3, 4, 5⟩] from by decide]
  rw [show ((List.insertionSort assayLE [⟨1, 8, 20⟩]).map
      (fun a => (a, (a.fromDepth + a.toDepth) / 2))).filter
        (fun p => p.1.hole_id == 1)
      = [((⟨1, 8, 20⟩ : AssayRow), ((8 : ℚ) + 20) / 2)] from rfl]
  rw [show List.insertionSort midLE [((⟨1, 8, 20⟩ : AssayRow), ((8 : ℚ) + 20) / 2)]
      = [((⟨1, 8, 20⟩ : AssayRow), ((8 : ℚ) + 20) / 2)] from rfl]
  rw [List.map_cons, List.map_nil, hnv]
  norm_num [TraceVert.pos]

/-- Concrete instantiation of `attach_nearest` at the spec's example: the
attached row for the interval `[8,20]` (mid 14) carries the vertex at
`md = 10`, the nearest of `{0, 10, 20}` to 14. -/
theorem attach_nearest_witness :
    ((⟨1, 8, 20, some 14, some ⟨10, 5, 6, 7, 8, 9⟩⟩ : AttachedRow) ∈
        attach_assay_positions [⟨1, 8, 20⟩]
          [⟨1, 0, 0, 0, 0, 0, 0⟩, ⟨1, 10, 5, 6, 7, 8, 9⟩, ⟨1, 20, 1, 2, 3, 4, 5⟩]) ∧
    (([⟨1, 0, 0, 0, 0, 0, 0⟩, ⟨1, 10, 5, 6, 7, 8, 9⟩, ⟨1, 20, 1, 2, 3, 4, 5⟩]
        : List TraceVert).filter (fun v => v.hole_id == (1 : ℕ)) ≠ []) ∧
    ((some (14 : ℚ) = some (((8 : ℚ) + 20) / 2)) ∧
      ∃ v, v ∈ ([⟨1, 0, 0, 0, 0, 0, 0⟩, ⟨1, 10, 5, 6, 7, 8, 9⟩, ⟨1, 20, 1, 2, 3, 4, 5⟩]
          : List TraceVert) ∧ v.hole_id = 1 ∧
        (some (⟨10, 5, 6, 7, 8, 9⟩ : TracePos) = some v.pos) ∧
        (∀ w ∈ ([⟨1, 0, 0, 0, 0, 0, 0⟩, ⟨1, 10, 5, 6, 7, 8, 9⟩, ⟨1, 20, 1, 2, 3, 4, 5⟩]
            : List TraceVert), w.hole_id = 1 →
          |v.md - ((8 : ℚ) + 20) / 2| ≤ |w.md - ((8 : ℚ) + 20) / 2|) ∧
        (∀ w ∈ ([⟨1, 0, 0, 0, 0, 0, 0⟩, ⟨1, 10, 5, 6, 7, 8, 9⟩, ⟨1, 20, 1, 2, 3, 4, 5⟩]
            : List TraceVert), w.hole_id = 1 →
          |w.md - ((8 : ℚ) + 20) / 2| = |v.md - ((8 : ℚ) + 20) / 2| → v.md ≤ w.md)) := by
  have hmem : (⟨1, 8, 20, some 14, some ⟨10, 5, 6, 7, 8, 9⟩⟩ : AttachedRow) ∈
      attach_assay_positions [⟨1, 8, 20⟩]
        [⟨1, 0, 0, 0, 0, 0, 0⟩, ⟨1, 10, 5, 6, 7, 8, 9⟩, ⟨1, 20, 1, 2, 3, 4, 5⟩] := by
    rw [attach_nearest_example_eval]
    exact List.mem_cons_self _ _
  have hne : ([⟨1, 0, 0, 0, 0, 0, 0⟩, ⟨1, 10, 5, 6, 7, 8, 9⟩, ⟨1, 20, 1, 2, 3, 4, 5⟩]
      : List TraceVert).filter (fun v => v.hole_id == (1 : ℕ)) ≠ [] := by decide
  exact ⟨hmem, hne, attach_nearest _ _ _ hmem hne⟩

/-- Concrete instantiation of `attach_output_ordering`. -/
theorem attach_output_ordering_witness :
    (([⟨2, 0, 10⟩, ⟨1, 0, 10⟩] : List AssayRow) ≠ []) ∧
    (([⟨1, 0, 0, 0, 0, 0, 0⟩, ⟨2, 0, 0, 0, 0, 0, 0⟩] : List TraceVert) ≠ []) ∧
    (List.Chain' (fun x y => x.hole_id ≤ y.hole_id)
        (attach_assay_positions [⟨2, 0, 10⟩, ⟨1, 0, 10⟩]
          [⟨1, 0, 0, 0, 0, 0, 0⟩, ⟨2, 0, 0, 0, 0, 0, 0⟩]) ∧
      ∀ hid, ([⟨1, 0, 0, 0, 0, 0, 0⟩, ⟨2, 0, 0, 0, 0, 0, 0⟩] : List TraceVert).filter
          (fun v => v.hole_id == hid) ≠ [] →
        List.Chain' (· ≤ ·)
          (((attach_assay_positions [⟨2, 0, 10⟩, ⟨1, 0, 10⟩]
              [⟨1, 0, 0, 0, 0, 0, 0⟩, ⟨2, 0, 0, 0, 0, 0, 0⟩]).filter
            (fun r => r.hole_id == hid)).filterMap (fun r => r.mid))) :=
  ⟨List.cons_ne_nil _ _, List.cons_ne_nil _ _,
    attach_output_ordering [⟨2, 0, 10⟩, ⟨1, 0, 10⟩]
      [⟨1, 0, 0, 0, 0, 0, 0⟩, ⟨2, 0, 0, 0, 0, 0, 0⟩]
      (List.cons_ne_nil _ _) (List.cons_ne_nil _ _)⟩

/-- Concrete instantiation of `resample_trace_single_vertex_hole`: hole 1
has one vertex, hole 2 has two. -/
theorem resample_trace_single_vertex_hole_witness :
    ((0 : ℚ) < 1) ∧
    (([⟨1, 5, 10, 20, 30⟩, ⟨2, 0, 0, 0, 0⟩, ⟨2, 1, 1, 1, 1⟩] : List TraceRow).filter
        (fun row => row.hole_id == 1) = [⟨1, 5, 10, 20, 30⟩]) ∧
    ((resample_trace [⟨1, 5, 10, 20, 30⟩, ⟨2, 0, 0, 0, 0⟩, ⟨2, 1, 1, 1, 1⟩] 1).filter
        (fun row => row.hole_id == 1) = [⟨1, 5, 10, 20, 30⟩]) :=
  ⟨by norm_num, rfl,
    resample_trace_single_vertex_hole [⟨1, 5, 10, 20, 30⟩, ⟨2, 0, 0, 0, 0⟩, ⟨2, 1, 1, 1, 1⟩]
      1 1 ⟨1, 5, 10, 20, 30⟩ (by norm_num) rfl⟩

end Baselode
